import Mathlib

/-!
# Verification of the stream-capture HLS capture engine

Shallow embedding of the playlist parser (internal/hls/playlist.go), the
HTTP fetcher outcome logic (internal/hls/fetcher.go), the segment store
(internal/downloader, the Manager), and the capture controller loop
(cmd/stream-capture/cmd/capture.go, executeCapture), together with proofs
of the specification's claims about them.

Modelling conventions:
* Machine integers (Go int) are modelled as Int; decimal overflow of
  strconv.Atoi is not modelled (all quantities of interest are small).
* Byte payloads are List Nat.
* The file system is an association list from path (String) to contents.
* Network effects are an environment: a function from a request counter to
  the outcome of that request.
* Go float64 durations are informational only (per the spec); the raw
  matched token is kept instead of a float value.
* net/url parse failures (the MalformedPlaylist error path) are not
  modelled: URL resolution is a total function here, which only enlarges
  the set of accepted playlist documents.
-/

namespace StreamCap

/-! ## Character and string utilities (bufio.Scanner, strings.TrimSpace) -/

/-- Whitespace characters recognized by strings.TrimSpace (ASCII part;
Unicode space classes beyond ASCII are not modelled). -/
def isSpaceChar (c : Char) : Bool :=
  c = ' ' || c = '\t' || c = '\n' || c = '\x0d' || c = '\x0b' || c = '\x0c'

/-- strings.TrimSpace on a character list. -/
def trimChars (cs : List Char) : List Char :=
  ((cs.dropWhile isSpaceChar).reverse.dropWhile isSpaceChar).reverse

/-- bufio.Scanner with ScanLines: split at newline characters; a trailing
newline does not produce a final empty line.  (The 64K token size limit and
the dropping of a carriage return before the newline are not modelled; the
parser trims each line anyway.) -/
def scanLines : List Char → List (List Char)
  | [] => []
  | c :: rest =>
    if c = '\n' then [] :: scanLines rest
    else
      match scanLines rest with
      | [] => [[c]]
      | l :: ls => (c :: l) :: ls

/-- Numeric value of a decimal digit run (strconv.Atoi on a digits-only
capture; overflow to int64 is not modelled). -/
def digitsToNat (ds : List Char) : Nat :=
  ds.foldl (fun a c => a * 10 + (c.toNat - 48)) 0

/-- Matches a literal character list at the head of the input, returning
the remainder on success. -/
def matchLit : List Char → List Char → Option (List Char)
  | [], cs => some cs
  | _ :: _, [] => none
  | l :: ls, c :: cs => if c = l then matchLit ls cs else none

/-- Tries a pattern at every start position, leftmost first — the
unanchored leftmost search of Go's regexp FindStringSubmatch. -/
def scanFor {α : Type} (f : List Char → Option α) : List Char → Option α
  | [] => f []
  | c :: rest =>
    match f (c :: rest) with
    | some a => some a
    | none => scanFor f rest

/-! ## Playlist parser (internal/hls/playlist.go) -/

/-- The regex #EXT-X-MEDIA-SEQUENCE:(\d+) tried at one position: the
literal followed by a nonempty maximal digit run (the greedy capture). -/
def mediaSeqAt (cs : List Char) : Option Nat :=
  match matchLit "#EXT-X-MEDIA-SEQUENCE:".data cs with
  | none => none
  | some rest =>
    let ds := rest.takeWhile Char.isDigit
    if ds.isEmpty then none else some (digitsToNat ds)

/-- The regex #EXTINF:([\d.]+) tried at one position: the literal followed
by a nonempty maximal run of digits and dots (the raw token; its float64
value is informational only and not modelled). -/
def extInfAt (cs : List Char) : Option (List Char) :=
  match matchLit "#EXTINF:".data cs with
  | none => none
  | some rest =>
    let ds := rest.takeWhile (fun c => c.isDigit || c = '.')
    if ds.isEmpty then none else some ds

/-- The regex _(\d+)\.ts tried at one position: an underscore, a nonempty
maximal digit run, then ".ts".  (Backtracking to a shorter digit run can
never succeed, since the character after a shortened run is a digit, not a
dot, so the greedy maximal run is exact.) -/
def seqTsAt (cs : List Char) : Option Nat :=
  match cs with
  | '_' :: rest =>
    let ds := rest.takeWhile Char.isDigit
    if ds.isEmpty then none
    else if (rest.drop ds.length).take 3 = ['.', 't', 's'] then
      some (digitsToNat ds)
    else none
  | _ => none

/-- MaxInt64: the largest value of Go's 64-bit int. -/
def int64Max : Int := 2 ^ 63 - 1

/-- MinInt64: the smallest value of Go's 64-bit int. -/
def int64Min : Int := -(2 ^ 63)

/-- Two's-complement wrap-around of Go's 64-bit int arithmetic.  Wrapping
the mathematical value of a compound expression equals wrapping after
every operation, since wrap64 respects congruence modulo 2^64. -/
def wrap64 (n : Int) : Int := (n + 2 ^ 63) % 2 ^ 64 - 2 ^ 63

/-- The value strconv.Atoi leaves in an int variable when its error is
discarded: the parsed value when it fits in int64, else the saturated
MaxInt64 that Atoi returns together with ErrRange (the capture is
digits-only, so the overflow is always positive). -/
def atoiClamp (n : Nat) : Int :=
  if (n : Int) ≤ int64Max then (n : Int) else int64Max

/-- extractSequenceFromURL: leftmost _(\d+)\.ts match in the segment
reference; the code converts the captured digit run with strconv.Atoi and
uses it only when err == nil, so a digit run beyond int64 range falls back
to the running-counter default. -/
def extractSequenceFromURL (segmentURL : List Char) (defaultSeq : Int) : Int :=
  match scanFor seqTsAt segmentURL with
  | some n => if (n : Int) ≤ int64Max then Int.ofNat n else defaultSeq
  | none => defaultSeq

/-- Does the reference have a URL scheme (contains "://")?  Part of the
abstracted net/url resolution. -/
def hasScheme (cs : List Char) : Bool :=
  (scanFor (matchLit "://".data) cs).isSome

/-- The base URL up to and including its last slash. -/
def baseDir (base : String) : List Char :=
  (base.data.reverse.dropWhile (fun c => c ≠ '/')).reverse

/-- base.Parse(line).String(): RFC 3986 resolution of net/url, abstracted
to the two cases that occur for playlist references (absolute references
kept verbatim, relative references joined to the base directory); parse
failures are not modelled. -/
def resolveRef (base : String) (ref : List Char) : String :=
  if hasScheme ref then ref.asString
  else (baseDir base ++ ref).asString

/-- An HLS media segment (hls.Segment).  durTok is the raw #EXTINF token
for the segment, if any (float64 value informational only). -/
structure Segment where
  url : String
  sequence : Int
  durTok : Option (List Char)
deriving DecidableEq, Repr

/-- The line-by-line scan of ParsePlaylist: mediaSeq is the running
sequence counter (a Go int, so declarations saturate through atoiClamp
and the post-reference increment wraps through wrap64), dur the pending
#EXTINF token. -/
def parseLines (base : String) : List (List Char) → Int → Option (List Char) → List Segment
  | [], _, _ => []
  | l :: rest, mediaSeq, dur =>
    let line := trimChars l
    match scanFor mediaSeqAt line with
    | some n => parseLines base rest (atoiClamp n) dur
    | none =>
      match scanFor extInfAt line with
      | some tok => parseLines base rest mediaSeq (some tok)
      | none =>
        match line with
        | [] => parseLines base rest mediaSeq dur
        | c :: cs =>
          if c = '#' then parseLines base rest mediaSeq dur
          else
            ⟨resolveRef base (c :: cs),
             extractSequenceFromURL (c :: cs) mediaSeq,
             dur⟩ :: parseLines base rest (wrap64 (mediaSeq + 1)) none

/-- ParsePlaylist(playlistContent, baseURL): scan lines, starting counter
0 and no pending duration.  Total here (see module comment on the
MalformedPlaylist path). -/
def parsePlaylist (playlistContent baseURL : String) : List Segment :=
  parseLines baseURL (scanLines playlistContent.data) 0 none

/-- GetLastSegment: the segment with the highest sequence number (first
one wins on ties, via the strict comparison in the loop). -/
def getLastSegment : List Segment → Option Segment
  | [] => none
  | s :: rest =>
    some (rest.foldl (fun last x => if x.sequence > last.sequence then x else last) s)

/-- FindSegmentBySequence: first segment with the given sequence number. -/
def findSegmentBySequence : List Segment → Int → Option Segment
  | [], _ => none
  | s :: rest, n => if s.sequence = n then some s else findSegmentBySequence rest n

/-! ## Decimal rendering (fmt.Sprintf "%d") -/

/-- A decimal digit as a character. -/
def digitChar : Nat → Char
  | 0 => '0' | 1 => '1' | 2 => '2' | 3 => '3' | 4 => '4'
  | 5 => '5' | 6 => '6' | 7 => '7' | 8 => '8' | 9 => '9'
  | _ => '*'

/-- Value of a decimal digit character (inverse of digitChar on 0..9). -/
def digitVal : Char → Nat
  | '0' => 0 | '1' => 1 | '2' => 2 | '3' => 3 | '4' => 4
  | '5' => 5 | '6' => 6 | '7' => 7 | '8' => 8 | '9' => 9
  | _ => 0

/-- Fuel-driven decimal printer (fuel at least n + 1 suffices). -/
def natReprAux : Nat → Nat → List Char → List Char
  | 0, _, acc => acc
  | f + 1, n, acc =>
    if n < 10 then digitChar n :: acc
    else natReprAux f (n / 10) (digitChar (n % 10) :: acc)

/-- Standard decimal rendering of a Nat. -/
def natDecimal (n : Nat) : List Char := natReprAux (n + 1) n []

/-- fmt.Sprintf "%d" of a Go int. -/
def intDecimal : Int → List Char
  | .ofNat n => natDecimal n
  | .negSucc n => '-' :: natDecimal (n + 1)

/-! ## File system and association-list maps -/

/-- Byte strings. -/
abbrev Bytes := List Nat

/-- Association-list lookup (first match wins). -/
def alLookup {κ α : Type} [DecidableEq κ] : List (κ × α) → κ → Option α
  | [], _ => none
  | (q, a) :: rest, k => if q = k then some a else alLookup rest k

/-- Association-list write: overwrite any existing binding for the key. -/
def alWrite {κ α : Type} [DecidableEq κ] (l : List (κ × α)) (k : κ) (a : α) :
    List (κ × α) :=
  (k, a) :: l.filter (fun e => !(decide (e.1 = k)))

/-- Association-list erase. -/
def alErase {κ α : Type} [DecidableEq κ] (l : List (κ × α)) (k : κ) :
    List (κ × α) :=
  l.filter (fun e => !(decide (e.1 = k)))

/-- The file system: a map from path to file contents. -/
abbrev FS := List (String × Bytes)

/-- Is path p inside directory dir?  (Used to model os.RemoveAll(dir).) -/
def isUnder (dir p : String) : Bool :=
  (dir.data ++ ['/']).isPrefixOf p.data

/-! ## Segment store (internal/downloader Manager) -/

/-- downloader.Manager: the staging area state. -/
structure Manager where
  tempDir : String
  segments : List (Int × String)
deriving DecidableEq, Repr

/-- filepath.Join(tempDir, fmt.Sprintf("segment_%d.ts", sequence)); Join's
path cleaning is not modelled (tempDir has no trailing slash). -/
def segmentFileName (tempDir : String) (sequence : Int) : String :=
  tempDir ++ "/segment_" ++ (intDecimal sequence).asString ++ ".ts"

/-- Outcome of one FetchSegment network call: the full payload, or a
failure after some prefix of the payload was already streamed to the
writer.  A network-level failure and a body-streaming failure are modelled
alike (both make FetchSegment return an error). -/
inductive SegFetch where
  | ok (payload : Bytes)
  | fail (leftover : Bytes)
deriving DecidableEq, Repr

/-- Result of Manager.DownloadSegment: updated file system and store,
the returned path (none on error), and whether a network fetch was
issued. -/
structure DLRes where
  fs : FS
  mgr : Manager
  result : Option String
  fetched : Bool
deriving DecidableEq, Repr

/-- The fresh-download path of DownloadSegment: create the backing file
(truncating), stream the fetch into it; on failure remove the file and
report the error, on success register the path in the map.  (os.Create
failure is not modelled.) -/
def downloadFresh (fs : FS) (m : Manager) (seg : Segment) (net : SegFetch) : DLRes :=
  let filename := segmentFileName m.tempDir seg.sequence
  let fs1 := alWrite fs filename ([] : Bytes)
  match net with
  | .fail leftover =>
    ⟨alErase (alWrite fs1 filename leftover) filename, m, none, true⟩
  | .ok payload =>
    ⟨alWrite fs1 filename payload,
     { m with segments := alWrite m.segments seg.sequence filename },
     some filename, true⟩

/-- Manager.DownloadSegment: return the staged path unchanged if an entry
exists and its file is still present; drop a stale entry whose file is
gone; otherwise download fresh. -/
def downloadSegment (fs : FS) (m : Manager) (seg : Segment) (net : SegFetch) : DLRes :=
  match alLookup m.segments seg.sequence with
  | some path =>
    if (alLookup fs path).isSome then ⟨fs, m, some path, false⟩
    else
      downloadFresh fs { m with segments := alErase m.segments seg.sequence } seg net
  | none => downloadFresh fs m seg net

/-- Errors of Manager.MergeSegments. -/
inductive MergeErr where
  | missing (seq : Int)
  | copyFail (seq : Int)
deriving DecidableEq, Repr

/-- The merge loop: for each sequence look up its staged path (error
"segment %d not found" if absent), open and append its bytes to the
output (copyFile; an unopenable source file is the copy error). -/
def mergeLoop (m : Manager) (outputPath : String) : FS → List Int → FS × Option MergeErr
  | fs, [] => (fs, none)
  | fs, s :: rest =>
    match alLookup m.segments s with
    | none => (fs, some (.missing s))
    | some p =>
      match alLookup fs p with
      | none => (fs, some (.copyFail s))
      | some b =>
        let cur := (alLookup fs outputPath).getD []
        mergeLoop m outputPath (alWrite fs outputPath (cur ++ b)) rest

/-- Manager.MergeSegments: os.Create truncates the output, then segments
are appended in the given order.  (os.Create failure on the output path is
not modelled; copying a file into itself is outside the model and every
theorem below assumes the output path is not a staged path.) -/
def mergeSegments (fs : FS) (m : Manager) (outputPath : String) (seqs : List Int) :
    FS × Option MergeErr :=
  mergeLoop m outputPath (alWrite fs outputPath []) seqs

/-- Manager.Cleanup followed by the deferred os.RemoveAll(tempDir) of the
controller: every staged file is removed, the map is reset, and everything
under the temporary directory disappears. -/
def cleanup (fs : FS) (m : Manager) : FS × Manager :=
  let fs1 := m.segments.foldl (fun acc e => alErase acc e.2) fs
  (fs1.filter (fun e => !(isUnder m.tempDir e.1)), { m with segments := [] })

/-! ## HTTP fetcher (internal/hls/fetcher.go) -/

/-- One HTTP round trip as the fetcher sees it: a network/transport
failure (including a failure while reading or streaming the body), or a
response with a status code and a fully transferred body. -/
inductive HTTPResult where
  | netErr
  | resp (status : Nat) (body : Bytes)
deriving DecidableEq, Repr

/-- Fetcher.FetchPlaylist: error on transport failure or any status code
other than http.StatusOK (200); otherwise the whole body (byte-to-string
decoding is the identity on the byte level and not modelled). -/
def fetchPlaylist : HTTPResult → Option Bytes
  | .netErr => none
  | .resp status body => if status = 200 then some body else none

/-- Fetcher.FetchSegment: same conditions, but the body is streamed onto
the given writer; returns the writer contents after io.Copy. -/
def fetchSegment (r : HTTPResult) (writer : Bytes) : Option Bytes :=
  match r with
  | .netErr => none
  | .resp status body => if status = 200 then some (writer ++ body) else none

/-! ## Capture controller (cmd/stream-capture/cmd/capture.go, executeCapture)

The controller is an I/O loop; it is embedded as a fuel-driven interpreter
over an environment that supplies, per request counter, the outcome of
each network call and the value of the cancellation signal at each
checkpoint.  Audio and subtitle post-processing are external collaborators
(out of scope per the spec) and are not modelled; the deferred
manager.Cleanup() and os.RemoveAll(tempDir) run on every exit path,
including a panic. -/

/-- Static inputs of one capture run. -/
structure Config where
  playlistURL : String
  outputPath : String
  count : Int
  tempDir : String

/-- The environment: cancellation signal value at the k-th checkpoint,
playlist text (none = transport or parse-level fetch error) for the k-th
playlist fetch, and outcome of the k-th segment fetch. -/
structure Env where
  cancel : Nat → Bool
  playlist : Nat → Option String
  seg : Nat → SegFetch

/-- Observable events of a run, in order. -/
inductive Ev where
  | checkSeg (seq : Int) (cancelled : Bool)
  | checkPoll (seq : Int) (cancelled : Bool)
  | reqPlaylist
  | reqSegment (seq : Int)
  | sleep
  | assemble
deriving DecidableEq, Repr

/-- Run state: file system, store, downloadedSequences, plus ghost
instrumentation (vis: sequence numbers at outer-loop iteration entry;
payloads: bytes staged per downloaded sequence; dlog: download attempts
and their outcomes) and the request/checkpoint counters and event trace. -/
structure St where
  fs : FS
  mgr : Manager
  ds : List Int
  vis : List Int
  payloads : List (Int × Bytes)
  dlog : List (Int × Bool)
  ci : Nat
  fi : Nat
  si : Nat
  tr : List Ev

/-- Exit of the inner polling loop.  panicked models the nil-pointer
dereference of lastSeg.Sequence in the progress print when the refreshed
snapshot has no segments. -/
inductive PollRes where
  | found (s : Segment)
  | cancelled
  | panicked
  | fuelOut

/-- State change at a polling-loop cancellation checkpoint: consume the
checkpoint counter and record the observed value. -/
def checkPollStep (seq : Int) (c : Bool) (st : St) : St :=
  { st with ci := st.ci + 1, tr := st.tr ++ [Ev.checkPoll seq c] }

/-- State change of one playlist fetch: consume the fetch counter. -/
def reqPlaylistStep (st : St) : St :=
  { st with fi := st.fi + 1, tr := st.tr ++ [Ev.reqPlaylist] }

/-- time.Sleep(pollInterval). -/
def sleepStep (st : St) : St := { st with tr := st.tr ++ [Ev.sleep] }

/-- The inner wait-for-segment polling loop (capture.go lines 104-140):
check cancellation, fetch and parse the playlist (on fetch error sleep and
retry without bumping retryCount), break when the wanted sequence appears,
otherwise print progress on the first try and every fifth retry
(dereferencing GetLastSegment's result), bump retryCount, sleep, retry. -/
def pollLoop (env : Env) (cfg : Config) (seq : Int) :
    Nat → Nat → St → St × PollRes
  | 0, _, st => (st, .fuelOut)
  | fuel + 1, retry, st =>
    match env.cancel st.ci with
    | true => (checkPollStep seq true st, .cancelled)
    | false =>
      let st1 := checkPollStep seq false st
      match env.playlist st1.fi with
      | none => pollLoop env cfg seq fuel retry (sleepStep (reqPlaylistStep st1))
      | some content =>
        let st2 := reqPlaylistStep st1
        match findSegmentBySequence (parsePlaylist content cfg.playlistURL) seq with
        | some s => (st2, .found s)
        | none =>
          match (retry % 5 == 0 || retry == 0) &&
              (getLastSegment (parsePlaylist content cfg.playlistURL)).isNone with
          | true => (st2, .panicked)
          | false => pollLoop env cfg seq fuel (retry + 1) (sleepStep st2)

/-- Final outcome of a run.  cancelled and finished-without-error model a
nil error return; fatal models the early returns before the download loop;
panicked models a runtime panic. -/
inductive Outcome where
  | fatal
  | cancelled (ds : List Int)
  | finished (ds : List Int) (err : Option MergeErr)
  | panicked (ds : List Int)
  | fuelOut
deriving DecidableEq, Repr

/-- Does the outcome model a nil error return from executeCapture? -/
def Outcome.isSuccess : Outcome → Bool
  | .cancelled _ => true
  | .finished _ none => true
  | _ => false

/-- Run teardown: the deferred manager.Cleanup() and os.RemoveAll(tempDir)
(registered before any network work, so they run on every exit path). -/
def teardown (st : St) : St :=
  { st with fs := (cleanup st.fs st.mgr).1, mgr := (cleanup st.fs st.mgr).2 }

/-- State change of the merge phase: new file system, assembly event. -/
def assembleStep (fsNew : FS) (st : St) : St :=
  { st with fs := fsNew, tr := st.tr ++ [Ev.assemble] }

/-- The merge phase after the download loop (capture.go lines 156-182):
ensure the output directory (directories are not modelled), merge the
downloaded sequences into the output, then tear down. -/
def finishRun (cfg : Config) (st : St) : St × Outcome :=
  let r := mergeSegments st.fs st.mgr cfg.outputPath st.ds
  (teardown (assembleStep r.1 st), .finished st.ds r.2)

/-- Entry of one outer-loop iteration (ghost: record the visited
sequence). -/
def visStep (cur : Int) (st : St) : St := { st with vis := st.vis ++ [cur] }

/-- State change at the per-segment cancellation checkpoint. -/
def checkSegStep (cur : Int) (c : Bool) (st : St) : St :=
  { st with ci := st.ci + 1, tr := st.tr ++ [Ev.checkSeg cur c] }

/-- Apply the result of a DownloadSegment call to the run state: new file
system and store, consume the segment-fetch counter, record a segment
request event when a network fetch was issued. -/
def dlApply (cur : Int) (r : DLRes) (st : St) : St :=
  { st with
      fs := r.fs
      mgr := r.mgr
      si := st.si + 1
      tr := st.tr ++ (if r.fetched then [Ev.reqSegment cur] else []) }

/-- Ghost bookkeeping for a failed download attempt. -/
def dlFailStep (cur : Int) (st : St) : St :=
  { st with dlog := st.dlog ++ [(cur, false)] }

/-- downloadedSequences append plus ghost bookkeeping for a successful
download attempt. -/
def dlOkStep (cur : Int) (payload : Bytes) (st : St) : St :=
  { st with
      ds := st.ds ++ [cur]
      dlog := st.dlog ++ [(cur, true)]
      payloads := st.payloads ++ [(cur, payload)] }

/-- The outer per-segment loop (capture.go lines 93-152): for each
currentSeq up to targetSequence, check cancellation, poll until the
segment is available, download it, and append currentSeq to
downloadedSequences on success (skipping the sequence on failure).
currentSeq is a Go int, so the currentSeq++ of the loop header wraps
through wrap64. -/
def segLoop (env : Env) (cfg : Config) (pollFuel : Nat) (target : Int) :
    Nat → Int → St → St × Outcome
  | 0, _, st => (st, .fuelOut)
  | gas + 1, cur, st =>
    if cur > target then finishRun cfg st
    else
      let st0 := visStep cur st
      match env.cancel st0.ci with
      | true =>
        (teardown (checkSegStep cur true st0), .cancelled (checkSegStep cur true st0).ds)
      | false =>
        let st1 := checkSegStep cur false st0
        match pollLoop env cfg cur pollFuel 0 st1 with
        | (st2, .cancelled) => (teardown st2, .cancelled st2.ds)
        | (st2, .panicked) => (teardown st2, .panicked st2.ds)
        | (st2, .fuelOut) => (st2, .fuelOut)
        | (st2, .found s) =>
          let net := env.seg st2.si
          let r := downloadSegment st2.fs st2.mgr s net
          let st3 := dlApply cur r st2
          match r.result with
          | none => segLoop env cfg pollFuel target gas (wrap64 (cur + 1)) (dlFailStep cur st3)
          | some _ =>
            segLoop env cfg pollFuel target gas (wrap64 (cur + 1))
              (dlOkStep cur (match net with | .ok b => b | .fail _ => []) st3)

/-- executeCapture (capture engine core): create the store over a fresh
temporary directory, fetch and parse the first snapshot, fail fatally if
it is empty, fix the capture window from its maximum sequence number, run
the download loop, merge, and tear down on every path.  targetSequence is
computed in Go int arithmetic, so startSequence + segmentCount - 1 wraps
through wrap64 (one wrap of the mathematical value equals wrapping each
operation). -/

def executeCapture (env : Env) (cfg : Config) (pollFuel gas : Nat) (fs0 : FS) :
    St × Outcome :=
  let st0 : St :=
    { fs := fs0, mgr := { tempDir := cfg.tempDir, segments := [] },
      ds := [], vis := [], payloads := [], dlog := [],
      ci := 0, fi := 0, si := 0, tr := [] }
  match env.playlist 0 with
  | none => (teardown { st0 with fi := 1, tr := [.reqPlaylist] }, .fatal)
  | some content =>
    let st0 := { st0 with fi := 1, tr := [.reqPlaylist] }
    let segs := parsePlaylist content cfg.playlistURL
    if segs.isEmpty then (teardown st0, .fatal)
    else
      match getLastSegment segs with
      | none => (teardown st0, .fatal)
      | some lastSeg =>
        let startSequence := lastSeg.sequence
        let targetSequence := wrap64 (startSequence + cfg.count - 1)
        segLoop env cfg pollFuel targetSequence gas startSequence st0

/-! ## Association-list lemmas -/

theorem alLookup_filter_ne {κ α : Type} [DecidableEq κ] (l : List (κ × α))
    (k k' : κ) (h : k' ≠ k) :
    alLookup (l.filter (fun e => !(decide (e.1 = k)))) k' = alLookup l k' := by
  induction l with
  | nil => rfl
  | cons e rest ih =>
    cases e with
    | mk q a =>
      by_cases he : q = k
      · have hf : ((q, a) :: rest).filter (fun e => !(decide (e.1 = k))) =
            rest.filter (fun e => !(decide (e.1 = k))) := by
          simp [List.filter, he]
        rw [hf, ih]
        simp only [alLookup]
        rw [if_neg (by rw [he]; exact fun hh => h hh.symm)]
      · have hf : ((q, a) :: rest).filter (fun e => !(decide (e.1 = k))) =
            (q, a) :: rest.filter (fun e => !(decide (e.1 = k))) := by
          simp [List.filter, he]
        rw [hf]
        simp only [alLookup]
        by_cases hq : q = k'
        · simp [hq]
        · rw [if_neg hq, if_neg hq, ih]

theorem alLookup_write_self {κ α : Type} [DecidableEq κ] (l : List (κ × α))
    (k : κ) (a : α) : alLookup (alWrite l k a) k = some a := by
  simp [alWrite, alLookup]

theorem alLookup_write_ne {κ α : Type} [DecidableEq κ] (l : List (κ × α))
    (k k' : κ) (a : α) (h : k' ≠ k) :
    alLookup (alWrite l k a) k' = alLookup l k' := by
  simp only [alWrite, alLookup]
  rw [if_neg (fun h' => h (h'.symm))]
  exact alLookup_filter_ne l k k' h

theorem alLookup_erase_self {κ α : Type} [DecidableEq κ] (l : List (κ × α))
    (k : κ) : alLookup (alErase l k) k = none := by
  induction l with
  | nil => rfl
  | cons e rest ih =>
    by_cases he : e.1 = k
    · simpa [alErase, List.filter, he] using ih
    · cases e with
      | mk q a =>
        simp only [alErase, List.filter] at ih ⊢
        simp only [he, decide_False, Bool.not_false]
        simp only [alLookup, if_neg he]
        exact ih

theorem alLookup_erase_ne {κ α : Type} [DecidableEq κ] (l : List (κ × α))
    (k k' : κ) (h : k' ≠ k) :
    alLookup (alErase l k) k' = alLookup l k' :=
  alLookup_filter_ne l k k' h

/-! ## Decimal printer: round trip and injectivity -/

theorem digitVal_digitChar {d : Nat} (h : d < 10) : digitVal (digitChar d) = d := by
  interval_cases d <;> rfl

theorem digitChar_isDigit {d : Nat} (h : d < 10) : (digitChar d).isDigit = true := by
  interval_cases d <;> rfl

theorem natReprAux_acc (f : Nat) : ∀ n acc,
    natReprAux f n acc = natReprAux f n [] ++ acc := by
  induction f with
  | zero => intro n acc; rfl
  | succ f ih =>
    intro n acc
    by_cases h : n < 10
    · simp [natReprAux, h]
    · simp only [natReprAux, if_neg h]
      rw [ih (n / 10) (digitChar (n % 10) :: acc), ih (n / 10) [digitChar (n % 10)]]
      simp

/-- Decimal value of a digit list. -/
def digitsVal (l : List Char) : Nat := l.foldl (fun a c => a * 10 + digitVal c) 0

theorem digitsVal_append_digit (l : List Char) (c : Char) :
    digitsVal (l ++ [c]) = digitsVal l * 10 + digitVal c := by
  simp [digitsVal, List.foldl_append]

theorem digitsVal_natReprAux : ∀ f n, n < f → digitsVal (natReprAux f n []) = n := by
  intro f
  induction f with
  | zero => intro n h; omega
  | succ f ih =>
    intro n h
    by_cases h10 : n < 10
    · simp [natReprAux, h10, digitsVal, digitVal_digitChar h10]
    · have hd : n / 10 < f := by
        have h1 : n / 10 < n := Nat.div_lt_self (by omega) (by omega)
        omega
      simp only [natReprAux, if_neg h10]
      rw [natReprAux_acc, digitsVal_append_digit, ih _ hd,
        digitVal_digitChar (Nat.mod_lt n (by omega))]
      omega

theorem digitsVal_natDecimal (n : Nat) : digitsVal (natDecimal n) = n :=
  digitsVal_natReprAux (n + 1) n (Nat.lt_succ_self n)

theorem natDecimal_inj {m n : Nat} (h : natDecimal m = natDecimal n) : m = n := by
  have := digitsVal_natDecimal m
  rw [h, digitsVal_natDecimal] at this
  omega

theorem natReprAux_digits : ∀ f n acc, (∀ c ∈ acc, c.isDigit = true) →
    ∀ c ∈ natReprAux f n acc, c.isDigit = true := by
  intro f
  induction f with
  | zero => intro n acc hacc; exact hacc
  | succ f ih =>
    intro n acc hacc c hc
    by_cases h10 : n < 10
    · simp only [natReprAux, if_pos h10] at hc
      rcases List.mem_cons.mp hc with h | h
      · subst h; exact digitChar_isDigit h10
      · exact hacc c h
    · simp only [natReprAux, if_neg h10] at hc
      refine ih (n / 10) _ ?_ c hc
      intro c' hc'
      rcases List.mem_cons.mp hc' with h | h
      · subst h; exact digitChar_isDigit (Nat.mod_lt n (by omega))
      · exact hacc c' h

theorem natDecimal_ne_nil (n : Nat) : natDecimal n ≠ [] := by
  unfold natDecimal natReprAux
  by_cases h : n < 10
  · simp [h]
  · rw [if_neg h, natReprAux_acc]
    simp

theorem intDecimal_inj {m n : Int} (h : intDecimal m = intDecimal n) : m = n := by
  cases m with
  | ofNat a =>
    cases n with
    | ofNat b => simpa [intDecimal] using congrArg Int.ofNat (natDecimal_inj h)
    | negSucc b =>
      exfalso
      simp only [intDecimal] at h
      have hd : '-'.isDigit = true := by
        have := natReprAux_digits (a + 1) a [] (by simp) '-'
        apply this
        rw [show natReprAux (a + 1) a [] = natDecimal a from rfl, h]
        simp
      simp [Char.isDigit] at hd
  | negSucc a =>
    cases n with
    | ofNat b =>
      exfalso
      simp only [intDecimal] at h
      have hd : '-'.isDigit = true := by
        have := natReprAux_digits (b + 1) b [] (by simp) '-'
        apply this
        rw [show natReprAux (b + 1) b [] = natDecimal b from rfl, ← h]
        simp
      simp [Char.isDigit] at hd
    | negSucc b =>
      simp only [intDecimal, List.cons.injEq, true_and] at h
      have hab := natDecimal_inj h
      simp only [Int.negSucc.injEq]
      omega

/-! ## Segment file name facts -/

theorem string_append_data (s t : String) : (s ++ t).data = s.data ++ t.data := rfl

theorem segmentFileName_data (tempDir : String) (s : Int) :
    (segmentFileName tempDir s).data =
      tempDir.data ++ '/' :: "segment_".data ++ intDecimal s ++ ".ts".data := by
  simp [segmentFileName, string_append_data, List.asString]

theorem segmentFileName_inj {tempDir : String} {a b : Int}
    (h : segmentFileName tempDir a = segmentFileName tempDir b) : a = b := by
  have hd := congrArg String.data h
  rw [segmentFileName_data, segmentFileName_data] at hd
  have h1 := List.append_cancel_left (List.append_cancel_right hd)
  exact intDecimal_inj h1

theorem isUnder_segmentFileName (tempDir : String) (s : Int) :
    isUnder tempDir (segmentFileName tempDir s) = true := by
  rw [isUnder, List.isPrefixOf_iff_prefix, segmentFileName_data]
  exact ⟨"segment_".data ++ intDecimal s ++ ".ts".data, by simp⟩

theorem ne_of_not_isUnder {tempDir p : String} (h : isUnder tempDir p = false)
    (s : Int) : p ≠ segmentFileName tempDir s := by
  intro he
  rw [he, isUnder_segmentFileName] at h
  exact Bool.noConfusion h

/-! ## Store lemmas: DownloadSegment and MergeSegments -/

theorem downloadSegment_cached (fs : FS) (m : Manager) (seg : Segment)
    (net : SegFetch) (p : String) (hm : alLookup m.segments seg.sequence = some p)
    (hf : (alLookup fs p).isSome = true) :
    downloadSegment fs m seg net = ⟨fs, m, some p, false⟩ := by
  simp [downloadSegment, hm, hf]

theorem downloadSegment_ok_state (fs : FS) (m : Manager) (seg : Segment)
    (net : SegFetch) (p : String)
    (h : (downloadSegment fs m seg net).result = some p) :
    alLookup (downloadSegment fs m seg net).mgr.segments seg.sequence = some p ∧
    (alLookup (downloadSegment fs m seg net).fs p).isSome = true := by
  rcases hl : alLookup m.segments seg.sequence with _ | path
  · cases net with
    | fail leftover => simp [downloadSegment, downloadFresh, hl] at h
    | ok payload =>
      simp only [downloadSegment, hl] at h ⊢
      simp only [downloadFresh] at h ⊢
      simp only [Option.some.injEq] at h
      subst h
      simp [alLookup_write_self]
  · by_cases hf : (alLookup fs path).isSome
    · have hc := downloadSegment_cached fs m seg net path hl hf
      rw [hc] at h ⊢
      simp only [Option.some.injEq] at h
      subst h
      exact ⟨hl, hf⟩
    · have hd : downloadSegment fs m seg net =
          downloadFresh fs { m with segments := alErase m.segments seg.sequence }
            seg net := by
        simp [downloadSegment, hl, hf]
      rw [hd] at h ⊢
      cases net with
      | fail leftover => simp [downloadFresh] at h
      | ok payload =>
        simp only [downloadFresh] at h ⊢
        simp only [Option.some.injEq] at h
        subst h
        simp [alLookup_write_self]

/-- C5: a retrieve call that finds a staged, still-present entry returns
it unchanged without a network fetch; hence a second retrieve after any
successful retrieve performs no fetch and returns the same handle, leaving
the store and file system untouched. -/
theorem c5_retrieve_idempotent (fs : FS) (m : Manager) (seg : Segment)
    (net net2 : SegFetch) (p : String)
    (h : (downloadSegment fs m seg net).result = some p) :
    downloadSegment (downloadSegment fs m seg net).fs
        (downloadSegment fs m seg net).mgr seg net2 =
      ⟨(downloadSegment fs m seg net).fs, (downloadSegment fs m seg net).mgr,
        some p, false⟩ := by
  obtain ⟨hm, hf⟩ := downloadSegment_ok_state fs m seg net p h
  exact downloadSegment_cached _ _ _ _ _ hm hf

/-- Witness for c5_retrieve_idempotent: a fresh successful download of a
segment with sequence 5, followed by a second retrieve. -/
theorem c5_retrieve_idempotent_witness :
    ((downloadSegment [] ⟨"tmp", []⟩ ⟨"http://h/s_5.ts", 5, none⟩
        (SegFetch.ok [1, 2])).result = some "tmp/segment_5.ts") ∧
    downloadSegment
        (downloadSegment [] ⟨"tmp", []⟩ ⟨"http://h/s_5.ts", 5, none⟩
          (SegFetch.ok [1, 2])).fs
        (downloadSegment [] ⟨"tmp", []⟩ ⟨"http://h/s_5.ts", 5, none⟩
          (SegFetch.ok [1, 2])).mgr
        ⟨"http://h/s_5.ts", 5, none⟩ (SegFetch.ok [9]) =
      ⟨(downloadSegment [] ⟨"tmp", []⟩ ⟨"http://h/s_5.ts", 5, none⟩
          (SegFetch.ok [1, 2])).fs,
        (downloadSegment [] ⟨"tmp", []⟩ ⟨"http://h/s_5.ts", 5, none⟩
          (SegFetch.ok [1, 2])).mgr,
        some "tmp/segment_5.ts", false⟩ :=
  ⟨by decide,
    c5_retrieve_idempotent [] ⟨"tmp", []⟩ ⟨"http://h/s_5.ts", 5, none⟩
      (SegFetch.ok [1, 2]) (SegFetch.ok [9]) "tmp/segment_5.ts" (by decide)⟩

/-- C7 counterexample: a completed round trip with status 201 — a 2xx
success — on which both fetch operations nevertheless fail, because the
code accepts exactly http.StatusOK (200). -/
theorem c7_counterexample :
    fetchPlaylist (HTTPResult.resp 201 [42]) = none ∧
    fetchSegment (HTTPResult.resp 201 [42]) [] = none ∧
    (200 ≤ 201 ∧ 201 < 300) := by
  decide

/-- C7 as amended: a fetch succeeds exactly when the round trip completes
with status exactly 200 (201, 204, 206 and every other 2xx status also
fail); on success FetchPlaylist returns the whole body and FetchSegment
appends the whole body to the writer. -/
theorem c7_fetch_success_iff_200 : ∀ (r : HTTPResult) (w b : Bytes),
    ((fetchPlaylist r).isSome ↔ ∃ body, r = HTTPResult.resp 200 body) ∧
    ((fetchSegment r w).isSome ↔ ∃ body, r = HTTPResult.resp 200 body) ∧
    fetchPlaylist (HTTPResult.resp 200 b) = some b ∧
    fetchSegment (HTTPResult.resp 200 b) w = some (w ++ b) := by
  intro r w b
  refine ⟨?_, ?_, by simp [fetchPlaylist], by simp [fetchSegment]⟩
  · cases r with
    | netErr => simp [fetchPlaylist]
    | resp status body =>
      by_cases hs : status = 200
      · subst hs; simp [fetchPlaylist]
      · simp [fetchPlaylist, hs]
  · cases r with
    | netErr => simp [fetchSegment]
    | resp status body =>
      by_cases hs : status = 200
      · subst hs; simp [fetchSegment]
      · simp [fetchSegment, hs]

theorem mergeLoop_ok (m : Manager) (out : String) (bytesOf : Int → Bytes) :
    ∀ (seqs : List Int) (fs : FS) (acc : Bytes),
    (∀ q ∈ seqs, ∃ pq, alLookup m.segments q = some pq ∧ pq ≠ out ∧
        alLookup fs pq = some (bytesOf q)) →
    alLookup fs out = some acc →
    (mergeLoop m out fs seqs).2 = none ∧
    alLookup (mergeLoop m out fs seqs).1 out =
      some (acc ++ (seqs.map bytesOf).flatten) ∧
    (∀ p, p ≠ out → alLookup (mergeLoop m out fs seqs).1 p = alLookup fs p) := by
  intro seqs
  induction seqs with
  | nil =>
    intro fs acc _ hout
    simpa [mergeLoop] using hout
  | cons s rest ih =>
    intro fs acc hpre hout
    obtain ⟨pq, hm, hne, hfs⟩ := hpre s (List.mem_cons_self s rest)
    simp only [mergeLoop, hm, hfs, hout, Option.getD_some]
    have hrest : ∀ q ∈ rest, ∃ pq', alLookup m.segments q = some pq' ∧ pq' ≠ out ∧
        alLookup (alWrite fs out (acc ++ bytesOf s)) pq' = some (bytesOf q) := by
      intro q hq
      obtain ⟨pq', hm', hne', hfs'⟩ := hpre q (List.mem_cons_of_mem s hq)
      exact ⟨pq', hm', hne', by rw [alLookup_write_ne _ _ _ _ hne']; exact hfs'⟩
    obtain ⟨h1, h2, h3⟩ := ih (alWrite fs out (acc ++ bytesOf s)) (acc ++ bytesOf s)
      hrest (alLookup_write_self _ _ _)
    refine ⟨h1, ?_, ?_⟩
    · rw [h2]
      simp [List.append_assoc]
    · intro p hp
      rw [h3 p hp, alLookup_write_ne _ _ _ _ hp]

theorem mergeLoop_missing (m : Manager) (out : String) (bytesOf : Int → Bytes)
    (s : Int) (rest : List Int) (hmiss : alLookup m.segments s = none) :
    ∀ (pre : List Int) (fs : FS) (acc : Bytes),
    (∀ q ∈ pre, ∃ pq, alLookup m.segments q = some pq ∧ pq ≠ out ∧
        alLookup fs pq = some (bytesOf q)) →
    alLookup fs out = some acc →
    (mergeLoop m out fs (pre ++ s :: rest)).2 = some (MergeErr.missing s) ∧
    alLookup (mergeLoop m out fs (pre ++ s :: rest)).1 out =
      some (acc ++ (pre.map bytesOf).flatten) := by
  intro pre
  induction pre with
  | nil =>
    intro fs acc _ hout
    simpa [mergeLoop, hmiss] using hout
  | cons q0 rest' ih =>
    intro fs acc hpre hout
    obtain ⟨pq, hm, hne, hfs⟩ := hpre q0 (List.mem_cons_self q0 rest')
    simp only [List.cons_append, mergeLoop, hm, hfs, hout, Option.getD_some]
    have hrest : ∀ q ∈ rest', ∃ pq', alLookup m.segments q = some pq' ∧ pq' ≠ out ∧
        alLookup (alWrite fs out (acc ++ bytesOf q0)) pq' = some (bytesOf q) := by
      intro q hq
      obtain ⟨pq', hm', hne', hfs'⟩ := hpre q (List.mem_cons_of_mem q0 hq)
      exact ⟨pq', hm', hne', by rw [alLookup_write_ne _ _ _ _ hne']; exact hfs'⟩
    obtain ⟨h1, h2⟩ := ih (alWrite fs out (acc ++ bytesOf q0)) (acc ++ bytesOf q0)
      hrest (alLookup_write_self _ _ _)
    simp only [List.append_eq]
    refine ⟨h1, ?_⟩
    rw [h2]
    simp [List.append_assoc]

/-- C10: assembly is not atomic on error.  When the sequence list contains
a sequence with no staged entry (and every earlier listed sequence is
staged with a readable backing file), the output file is created —
truncating whatever was there — before the check, every listed sequence
before the first missing one is appended to it, and only then is the
MissingSegment error returned. -/
theorem c10_assembly_not_atomic (fs : FS) (m : Manager) (out : String)
    (pre rest : List Int) (s : Int) (pathOf : Int → String) (bytesOf : Int → Bytes)
    (hpre : ∀ q ∈ pre, alLookup m.segments q = some (pathOf q) ∧ pathOf q ≠ out ∧
        alLookup fs (pathOf q) = some (bytesOf q))
    (hmiss : alLookup m.segments s = none) :
    (mergeSegments fs m out (pre ++ s :: rest)).2 = some (MergeErr.missing s) ∧
    alLookup (mergeSegments fs m out (pre ++ s :: rest)).1 out =
      some ((pre.map bytesOf).flatten) := by
  have hpre' : ∀ q ∈ pre, ∃ pq, alLookup m.segments q = some pq ∧ pq ≠ out ∧
      alLookup (alWrite fs out []) pq = some (bytesOf q) := by
    intro q hq
    obtain ⟨hm, hne, hfs⟩ := hpre q hq
    exact ⟨pathOf q, hm, hne, by rw [alLookup_write_ne _ _ _ _ hne]; exact hfs⟩
  have := mergeLoop_missing m out bytesOf s rest hmiss pre (alWrite fs out [])
    [] hpre' (alLookup_write_self _ _ _)
  simpa [mergeSegments] using this

/-- Witness for c10_assembly_not_atomic: sequence 1 staged with payload
[9], sequence 2 never staged, and an output file that previously held
[7, 7]: the merge truncates it, writes [9], then fails. -/
theorem c10_assembly_not_atomic_witness :
    ((∀ q ∈ [(1 : Int)],
        alLookup (Manager.mk "t" [(1, "t/segment_1.ts")]).segments q =
            some "t/segment_1.ts" ∧
          "t/segment_1.ts" ≠ "o.ts" ∧
          alLookup [("t/segment_1.ts", [9]), ("o.ts", [7, 7])] "t/segment_1.ts" =
            some [9]) ∧
      alLookup (Manager.mk "t" [(1, "t/segment_1.ts")]).segments 2 = none) ∧
    ((mergeSegments [("t/segment_1.ts", [9]), ("o.ts", [7, 7])]
          (Manager.mk "t" [(1, "t/segment_1.ts")]) "o.ts" ([1] ++ 2 :: [])).2 =
        some (MergeErr.missing 2) ∧
      alLookup (mergeSegments [("t/segment_1.ts", [9]), ("o.ts", [7, 7])]
          (Manager.mk "t" [(1, "t/segment_1.ts")]) "o.ts" ([1] ++ 2 :: [])).1
          "o.ts" =
        some (([(1 : Int)].map (fun _ => [9])).flatten)) :=
  ⟨⟨by decide, by decide⟩,
    c10_assembly_not_atomic [("t/segment_1.ts", [9]), ("o.ts", [7, 7])]
      (Manager.mk "t" [(1, "t/segment_1.ts")]) "o.ts" [1] [] 2
      (fun _ => "t/segment_1.ts") (fun _ => [9]) (by decide) (by decide)⟩

/-! ## Parser classification and sequence-assignment lemmas (C3, C4) -/

/-- How one scanned line is treated by ParsePlaylist, in the order the
code tests: starting-sequence directive, duration directive, segment
reference, ignored line. -/
inductive LineKind where
  | decl (n : Nat)
  | inf (tok : List Char)
  | ref (cs : List Char)
  | skip
deriving DecidableEq, Repr

/-- Classification of one raw line (after trimming), mirroring the test
order of the parser loop. -/
def classifyLine (l : List Char) : LineKind :=
  match scanFor mediaSeqAt (trimChars l) with
  | some n => .decl n
  | none =>
    match scanFor extInfAt (trimChars l) with
    | some tok => .inf tok
    | none =>
      match trimChars l with
      | [] => .skip
      | c :: cs => if c = '#' then .skip else .ref (c :: cs)

theorem parseLines_cons (base : String) (l : List Char) (rest : List (List Char))
    (mseq : Int) (dur : Option (List Char)) :
    parseLines base (l :: rest) mseq dur =
      match classifyLine l with
      | .decl n => parseLines base rest (atoiClamp n) dur
      | .inf tok => parseLines base rest mseq (some tok)
      | .skip => parseLines base rest mseq dur
      | .ref cs =>
        ⟨resolveRef base cs, extractSequenceFromURL cs mseq, dur⟩ ::
          parseLines base rest (wrap64 (mseq + 1)) none := by
  conv_lhs => rw [parseLines]
  rcases h1 : scanFor mediaSeqAt (trimChars l) with _ | n <;>
    simp only [classifyLine, h1]
  rcases h2 : scanFor extInfAt (trimChars l) with _ | tok <;> simp only [h2]
  rcases h3 : trimChars l with _ | ⟨c, cs⟩ <;> simp only [h3]
  by_cases hc : c = '#' <;> simp only [hc, if_true, if_false, reduceIte]

/-- The per-line sequence-number rule of the amended claim: a reference
whose text contains an occurrence of the pattern _digits.ts whose digit
run fits in int64 is assigned the digit run of the leftmost such
occurrence; any other reference (no occurrence, or the leftmost digit run
out of int64 range so the conversion fails) is assigned the running
counter, which a starting-sequence directive reseeds to its value
saturated at MaxInt64 and which advances by one per reference with int64
wrap-around. -/
def claimAssign : List (List Char) → Int → List Int
  | [], _ => []
  | l :: rest, c =>
    match classifyLine l with
    | .decl n => claimAssign rest (atoiClamp n)
    | .inf _ => claimAssign rest c
    | .skip => claimAssign rest c
    | .ref cs =>
      (match scanFor seqTsAt cs with
        | some n => if (n : Int) ≤ int64Max then Int.ofNat n else c
        | none => c) :: claimAssign rest (wrap64 (c + 1))

theorem parseLines_seq_claimAssign (base : String) :
    ∀ (lines : List (List Char)) (c : Int) (dur : Option (List Char)),
    (parseLines base lines c dur).map (fun s => s.sequence) = claimAssign lines c := by
  intro lines
  induction lines with
  | nil => intro c dur; rfl
  | cons l rest ih =>
    intro c dur
    rw [parseLines_cons]
    rcases hk : classifyLine l with n | tok | cs | _ <;>
      simp only [claimAssign, hk, ih, List.map_cons, extractSequenceFromURL]

/-! ### int64 arithmetic lemmas -/

theorem wrap64_eq_self {n : Int} (h1 : int64Min ≤ n) (h2 : n ≤ int64Max) :
    wrap64 n = n := by
  unfold wrap64
  unfold int64Min at h1
  unfold int64Max at h2
  have h63 : (2 : Int) ^ 63 = 9223372036854775808 := by norm_num
  have h64 : (2 : Int) ^ 64 = 18446744073709551616 := by norm_num
  rw [h63, h64]
  rw [h63] at h1
  rw [h63] at h2
  omega

theorem wrap64_range (n : Int) : int64Min ≤ wrap64 n ∧ wrap64 n ≤ int64Max := by
  unfold wrap64 int64Min int64Max
  have h63 : (2 : Int) ^ 63 = 9223372036854775808 := by norm_num
  have h64 : (2 : Int) ^ 64 = 18446744073709551616 := by norm_num
  rw [h63, h64]
  omega

theorem atoiClamp_range (n : Nat) : 0 ≤ atoiClamp n ∧ atoiClamp n ≤ int64Max := by
  unfold atoiClamp
  by_cases h : (n : Int) ≤ int64Max
  · rw [if_pos h]
    exact ⟨Int.natCast_nonneg n, h⟩
  · rw [if_neg h]
    unfold int64Max
    norm_num

theorem int64Max_pos : 0 < int64Max := by unfold int64Max; norm_num

theorem int64Min_lt_zero : int64Min < 0 := by unfold int64Min; norm_num

/-! ### C4: sequence assignment rule -/

/-- The final path component of a segment reference. -/
def finalPathComponent (cs : List Char) : List Char :=
  (cs.reverse.takeWhile (fun c => c ≠ '/')).reverse

/-- Does the text end in the pattern _digits.ts?  (The digit run of that
ending occurrence, if so.) -/
def endsInSeqTs (cs : List Char) : Option Nat :=
  match cs.reverse with
  | 's' :: 't' :: '.' :: rest =>
    let ds := rest.takeWhile Char.isDigit
    if ds.isEmpty then none
    else
      match rest.drop ds.length with
      | '_' :: _ => some (digitsToNat ds.reverse)
      | _ => none
  | _ => none

/-- The per-reference rule exactly as the claim states it: the embedded
digit run if the final path component ends in _digits.ts, else the
running counter. -/
def claimSequenceOriginal (cs : List Char) (counter : Int) : Int :=
  match endsInSeqTs (finalPathComponent cs) with
  | some n => Int.ofNat n
  | none => counter

/-- C4 counterexample: for the reference x_7.ts/seg.ts the final path
component seg.ts does not end in _digits.ts, so the claim assigns the
running counter (0 here), but the code matches _(\d+)\.ts anywhere in the
reference and assigns 7. -/
theorem c4_counterexample :
    (parsePlaylist "x_7.ts/seg.ts" "http://h/p.m3u8").map (fun s => s.sequence) =
        [7] ∧
    claimSequenceOriginal "x_7.ts/seg.ts".data 0 = 0 ∧ (7 : Int) ≠ 0 := by
  decide

/-- C4 as amended: a reference containing _digits.ts anywhere whose digit
run fits in int64 is assigned the digit run of the leftmost such
occurrence, every other reference (no occurrence, or its leftmost digit
run out of int64 range so strconv.Atoi fails) gets the running counter
(seeded by the latest starting-sequence declaration saturated at
MaxInt64, 0 if none, advancing by one per reference with int64
wrap-around); in particular a declaration of 100 followed by three
unadorned references yields 100, 101, 102, a reference whose only such
occurrence is the ending _719721.ts is assigned 719721 whatever the
counter holds, and the reference a_99999999999999999999.ts (digit run
beyond int64) falls back to the counter 0. -/
theorem c4_sequence_assignment : ∀ (content base : String),
    (parsePlaylist content base).map (fun s => s.sequence) =
      claimAssign (scanLines content.data) 0 ∧
    (parsePlaylist "#EXT-X-MEDIA-SEQUENCE:100\na.ts\nb.ts\nc.ts" base).map
        (fun s => s.sequence) = [100, 101, 102] ∧
    (∀ c : Int,
      (parseLines base (scanLines "master_1440_primary_719721.ts".data) c
          none).map (fun s => s.sequence) = [719721]) ∧
    (parseLines base (scanLines "a_99999999999999999999.ts".data) 0
        none).map (fun s => s.sequence) = [0] := by
  intro content base
  refine ⟨parseLines_seq_claimAssign base _ 0 none, ?_, ?_, ?_⟩
  · rw [parsePlaylist, parseLines_seq_claimAssign]
    decide
  · intro c
    rw [parseLines_seq_claimAssign]
    rfl
  · rw [parseLines_seq_claimAssign]
    decide

/-! ### C3: monotonicity of assigned sequence numbers -/

/-- C3 counterexample: the document with references a_5.ts then b.ts is
accepted by parse and yields sequence numbers 5 then 1 — decreasing in
document order (the first reference is overridden by its filename, the
second falls back to the running counter, which has only advanced to 1). -/
theorem c3_counterexample :
    (parsePlaylist "a_5.ts\nb.ts" "http://x/p.m3u8").map (fun s => s.sequence) =
        [5, 1] ∧
    ¬ List.Chain' (fun a b : Int => a ≤ b)
        ((parsePlaylist "a_5.ts\nb.ts" "http://x/p.m3u8").map
          (fun s => s.sequence)) := by
  have h : (parsePlaylist "a_5.ts\nb.ts" "http://x/p.m3u8").map
      (fun s => s.sequence) = [5, 1] := by decide
  refine ⟨h, ?_⟩
  rw [h]
  intro hc
  have h1 := (List.chain'_cons.mp hc).1
  omega

/-- A consecutive run of k integers starting at c. -/
def consecFrom (c : Int) : Nat → List Int
  | 0 => []
  | k + 1 => c :: consecFrom (c + 1) k

theorem consecFrom_succ (c : Int) (k : Nat) :
    consecFrom c (k + 1) = c :: consecFrom (c + 1) k := rfl

theorem chain'_le_consecFrom (k : Nat) : ∀ c : Int,
    List.Chain' (fun a b : Int => a ≤ b) (consecFrom c k) := by
  induction k with
  | zero => intro c; simp [consecFrom]
  | succ k ih =>
    intro c
    rw [consecFrom_succ]
    cases k with
    | zero => simp [consecFrom]
    | succ k' =>
      rw [consecFrom_succ]
      exact List.chain'_cons.mpr ⟨by omega, by rw [← consecFrom_succ]; exact ih (c + 1)⟩

/-- Does every segment reference in the scanned lines lack a filename
sequence override? -/
def lineNoOverride (l : List Char) : Bool :=
  match classifyLine l with
  | .ref cs => (scanFor seqTsAt cs).isNone
  | _ => true

/-- Do all starting-sequence declarations precede every segment
reference?  (seen tracks whether a reference has occurred yet.) -/
def declsFirstAux : List (List Char) → Bool → Bool
  | [], _ => true
  | l :: rest, seen =>
    match classifyLine l with
    | .decl _ => !seen && declsFirstAux rest seen
    | .ref _ => declsFirstAux rest true
    | _ => declsFirstAux rest seen

theorem declsFirstAux_true_no_decl : ∀ (lines : List (List Char)),
    declsFirstAux lines true = true →
    ∀ l ∈ lines, ∀ n, classifyLine l ≠ .decl n := by
  intro lines
  induction lines with
  | nil => intro _ l hl; cases hl
  | cons l0 rest ih =>
    intro h l hl n
    rcases hk : classifyLine l0 with n0 | tok | cs | _ <;>
      simp only [declsFirstAux, hk] at h
    case decl => simp at h
    all_goals
      rcases List.mem_cons.mp hl with rfl | hmem
      case inl => simp [hk]
      case inr => exact ih h l hmem n

/-- Is the scanned line a segment reference? -/
def isRefLine (l : List Char) : Bool :=
  match classifyLine l with
  | .ref _ => true
  | _ => false

/-- Number of segment-reference lines in the document. -/
def refCount (lines : List (List Char)) : Nat :=
  (lines.filter isRefLine).length

/-- Is the declared starting value of the line (if it is a declaration)
small enough that a run of m references from it stays within int64? -/
def declBound (m : Nat) (l : List Char) : Bool :=
  match classifyLine l with
  | LineKind.decl v => decide ((v : Int) + (m : Int) ≤ int64Max + 1)
  | _ => true

/-- No int64 wrap can occur in the running counter while scanning the
document: the reference count fits below the int64 overflow threshold and
every declared starting value plus the reference count stays within int64
range. -/
def noCounterWrap (lines : List (List Char)) : Bool :=
  decide ((refCount lines : Int) ≤ int64Max + 1) &&
  lines.all (declBound (refCount lines))

theorem refCount_cons_ref {l : List Char} (rest : List (List Char))
    (h : isRefLine l = true) : refCount (l :: rest) = refCount rest + 1 := by
  simp [refCount, List.filter_cons, h]

theorem refCount_cons_not {l : List Char} (rest : List (List Char))
    (h : isRefLine l = false) : refCount (l :: rest) = refCount rest := by
  simp [refCount, List.filter_cons, h]

theorem refCount_zero_no_ref : ∀ (lines : List (List Char)),
    refCount lines = 0 → ∀ l ∈ lines, isRefLine l = false := by
  intro lines h l hl
  have hf : lines.filter isRefLine = [] := List.length_eq_zero.mp h
  have := List.filter_eq_nil.mp hf l hl
  exact Bool.eq_false_iff.mpr this

theorem claimAssign_no_ref : ∀ (lines : List (List Char)) (c : Int),
    (∀ l ∈ lines, isRefLine l = false) → claimAssign lines c = [] := by
  intro lines
  induction lines with
  | nil => exact fun _ _ => rfl
  | cons l rest ih =>
    intro c hr
    rcases hk : classifyLine l with n | tok | cs | _
    · simp only [claimAssign, hk]
      exact ih _ (fun l' hl' => hr l' (List.mem_cons_of_mem l hl'))
    · simp only [claimAssign, hk]
      exact ih _ (fun l' hl' => hr l' (List.mem_cons_of_mem l hl'))
    · have := hr l (List.mem_cons_self l rest)
      rw [isRefLine, hk] at this
      cases this
    · simp only [claimAssign, hk]
      exact ih _ (fun l' hl' => hr l' (List.mem_cons_of_mem l hl'))

theorem declBound_mono {mLo mHi : Nat} (hm : mLo ≤ mHi) (l : List Char)
    (h : declBound mHi l = true) : declBound mLo l = true := by
  unfold declBound at h ⊢
  cases hk : classifyLine l with
  | decl v =>
    rw [hk] at h
    simp only [] at h
    rw [decide_eq_true_eq] at h
    exact decide_eq_true (by omega)
  | inf tok => rfl
  | ref cs => rfl
  | skip => rfl

theorem declBound_elim {m : Nat} {l : List Char} {v : Nat}
    (hk : classifyLine l = LineKind.decl v) (h : declBound m l = true) :
    (v : Int) + (m : Int) ≤ int64Max + 1 := by
  unfold declBound at h
  rw [hk] at h
  simp only [] at h
  exact of_decide_eq_true h

theorem noCounterWrap_tail (l : List Char) (rest : List (List Char))
    (h : noCounterWrap (l :: rest) = true) : noCounterWrap rest = true := by
  rw [noCounterWrap, Bool.and_eq_true] at h
  obtain ⟨h1, h2⟩ := h
  rw [decide_eq_true_eq] at h1
  have hmono : refCount rest ≤ refCount (l :: rest) := by
    cases hr : isRefLine l
    · rw [refCount_cons_not rest hr]
    · rw [refCount_cons_ref rest hr]; omega
  rw [noCounterWrap, Bool.and_eq_true]
  refine ⟨decide_eq_true (by omega), ?_⟩
  rw [List.all_eq_true] at h2 ⊢
  intro x hx
  exact declBound_mono hmono x (h2 x (List.mem_cons_of_mem l hx))

theorem isRefLine_of_ref {l cs} (hk : classifyLine l = LineKind.ref cs) :
    isRefLine l = true := by
  unfold isRefLine
  rw [hk]

theorem isRefLine_of_decl {l n} (hk : classifyLine l = LineKind.decl n) :
    isRefLine l = false := by
  unfold isRefLine
  rw [hk]

theorem isRefLine_of_inf {l tok} (hk : classifyLine l = LineKind.inf tok) :
    isRefLine l = false := by
  unfold isRefLine
  rw [hk]

theorem isRefLine_of_skip {l} (hk : classifyLine l = LineKind.skip) :
    isRefLine l = false := by
  unfold isRefLine
  rw [hk]

theorem claimAssign_no_decl_no_override : ∀ (lines : List (List Char)) (c : Int),
    (∀ l ∈ lines, ∀ n, classifyLine l ≠ .decl n) →
    (∀ l ∈ lines, lineNoOverride l = true) →
    0 ≤ c → c + refCount lines - 1 ≤ int64Max →
    claimAssign lines c = consecFrom c (refCount lines) := by
  intro lines
  induction lines with
  | nil => exact fun c _ _ _ _ => rfl
  | cons l rest ih =>
    intro c hd ho hc0 hc1
    rcases hk : classifyLine l with n | tok | cs | _
    · exact absurd hk (hd l (List.mem_cons_self l rest) n)
    · rw [refCount_cons_not rest (isRefLine_of_inf hk)] at hc1 ⊢
      simp only [claimAssign, hk]
      exact ih c (fun l' hl' => hd l' (List.mem_cons_of_mem l hl'))
        (fun l' hl' => ho l' (List.mem_cons_of_mem l hl')) hc0 hc1
    · have hov : (scanFor seqTsAt cs).isNone = true := by
        have := ho l (List.mem_cons_self l rest)
        rwa [lineNoOverride, hk] at this
      rw [refCount_cons_ref rest (isRefLine_of_ref hk)] at hc1 ⊢
      by_cases hz : refCount rest = 0
      · have htail : claimAssign rest (wrap64 (c + 1)) = [] :=
          claimAssign_no_ref rest _ (refCount_zero_no_ref rest hz)
        simp only [claimAssign, hk, Option.isNone_iff_eq_none.mp hov, htail, hz,
          consecFrom_succ, consecFrom]
      · have hw : wrap64 (c + 1) = c + 1 := by
          refine wrap64_eq_self ?_ ?_
          · have := int64Min_lt_zero
            omega
          · omega
        have htail := ih (c + 1)
          (fun l' hl' => hd l' (List.mem_cons_of_mem l hl'))
          (fun l' hl' => ho l' (List.mem_cons_of_mem l hl'))
          (by omega) (by omega)
        simp only [claimAssign, hk, Option.isNone_iff_eq_none.mp hov, hw, htail,
          consecFrom_succ]
    · rw [refCount_cons_not rest (isRefLine_of_skip hk)] at hc1 ⊢
      simp only [claimAssign, hk]
      exact ih c (fun l' hl' => hd l' (List.mem_cons_of_mem l hl'))
        (fun l' hl' => ho l' (List.mem_cons_of_mem l hl')) hc0 hc1

theorem claimAssign_consec : ∀ (lines : List (List Char)) (c : Int),
    declsFirstAux lines false = true →
    (∀ l ∈ lines, lineNoOverride l = true) →
    noCounterWrap lines = true →
    0 ≤ c → c + refCount lines - 1 ≤ int64Max →
    ∃ c' k, claimAssign lines c = consecFrom c' k := by
  intro lines
  induction lines with
  | nil => exact fun c _ _ _ _ _ => ⟨c, 0, rfl⟩
  | cons l rest ih =>
    intro c hd ho hw hc0 hc1
    have hwrest := noCounterWrap_tail l rest hw
    rcases hk : classifyLine l with n | tok | cs | _ <;>
      simp only [declsFirstAux, hk, Bool.not_false, Bool.true_and] at hd
    · have hdecl : (n : Int) + (refCount (l :: rest) : Int) ≤ int64Max + 1 := by
        rw [noCounterWrap, Bool.and_eq_true] at hw
        exact declBound_elim hk
          (List.all_eq_true.mp hw.2 l (List.mem_cons_self l rest))
      rw [refCount_cons_not rest (isRefLine_of_decl hk)] at hdecl
      simp only [claimAssign, hk]
      by_cases hfit : (n : Int) ≤ int64Max
      · have hcl : atoiClamp n = (n : Int) := by rw [atoiClamp, if_pos hfit]
        refine ih (atoiClamp n) hd
          (fun l' hl' => ho l' (List.mem_cons_of_mem l hl')) hwrest ?_ ?_
        · rw [hcl]; exact Int.natCast_nonneg n
        · rw [hcl]; omega
      · have hz : refCount rest = 0 := by
          by_contra hne
          omega
        refine ⟨c, 0, ?_⟩
        exact claimAssign_no_ref rest _ (refCount_zero_no_ref rest hz)
    · rw [refCount_cons_not rest (isRefLine_of_inf hk)] at hc1
      simp only [claimAssign, hk]
      exact ih c hd (fun l' hl' => ho l' (List.mem_cons_of_mem l hl')) hwrest hc0 hc1
    · have hov : (scanFor seqTsAt cs).isNone = true := by
        have := ho l (List.mem_cons_self l rest)
        rwa [lineNoOverride, hk] at this
      rw [refCount_cons_ref rest (isRefLine_of_ref hk)] at hc1
      by_cases hz : refCount rest = 0
      · have htail : claimAssign rest (wrap64 (c + 1)) = [] :=
          claimAssign_no_ref rest _ (refCount_zero_no_ref rest hz)
        refine ⟨c, 1, ?_⟩
        simp only [claimAssign, hk, Option.isNone_iff_eq_none.mp hov, htail,
          consecFrom_succ, consecFrom]
      · have hw1 : wrap64 (c + 1) = c + 1 := by
          refine wrap64_eq_self ?_ ?_
          · have := int64Min_lt_zero
            omega
          · omega
        have htail := claimAssign_no_decl_no_override rest (c + 1)
          (declsFirstAux_true_no_decl rest hd)
          (fun l' hl' => ho l' (List.mem_cons_of_mem l hl'))
          (by omega) (by omega)
        refine ⟨c, refCount rest + 1, ?_⟩
        simp only [claimAssign, hk, Option.isNone_iff_eq_none.mp hov, hw1, htail,
          consecFrom_succ]
    · rw [refCount_cons_not rest (isRefLine_of_skip hk)] at hc1
      simp only [claimAssign, hk]
      exact ih c hd (fun l' hl' => ho l' (List.mem_cons_of_mem l hl')) hwrest hc0 hc1

/-- C3 as amended: for every document accepted by parse in which no
segment reference carries a filename sequence override, every
starting-sequence declaration precedes the first segment reference, and
the int64 running counter cannot wrap while scanning (each declared
starting value plus the reference count, and the reference count itself,
stay within int64 range), the sequence numbers of the returned
descriptors are non-decreasing (in fact consecutive increasing) in
document order. -/
theorem c3_nondecreasing (content base : String)
    (hov : (scanLines content.data).all lineNoOverride = true)
    (hdecl : declsFirstAux (scanLines content.data) false = true)
    (hwrap : noCounterWrap (scanLines content.data) = true) :
    List.Chain' (fun a b : Int => a ≤ b)
      ((parsePlaylist content base).map (fun s => s.sequence)) := by
  rw [parsePlaylist, parseLines_seq_claimAssign]
  have hc1 : (0 : Int) + refCount (scanLines content.data) - 1 ≤ int64Max := by
    rw [noCounterWrap, Bool.and_eq_true] at hwrap
    have := hwrap.1
    rw [decide_eq_true_eq] at this
    omega
  obtain ⟨c', k, hck⟩ := claimAssign_consec (scanLines content.data) 0 hdecl
    (fun l hl => List.all_eq_true.mp hov l hl) hwrap le_rfl hc1
  rw [hck]
  exact chain'_le_consecFrom k c'

/-- Witness for c3_nondecreasing: a document with a starting-sequence
declaration of 7 and two unadorned references. -/
theorem c3_nondecreasing_witness :
    ((scanLines "#EXT-X-MEDIA-SEQUENCE:7\na.ts\nb.ts".data).all lineNoOverride =
        true ∧
      declsFirstAux (scanLines "#EXT-X-MEDIA-SEQUENCE:7\na.ts\nb.ts".data) false =
        true ∧
      noCounterWrap (scanLines "#EXT-X-MEDIA-SEQUENCE:7\na.ts\nb.ts".data) =
        true) ∧
    List.Chain' (fun a b : Int => a ≤ b)
      ((parsePlaylist "#EXT-X-MEDIA-SEQUENCE:7\na.ts\nb.ts" "http://x/p.m3u8").map
        (fun s => s.sequence)) :=
  ⟨⟨by decide, by decide, by decide⟩,
    c3_nondecreasing "#EXT-X-MEDIA-SEQUENCE:7\na.ts\nb.ts" "http://x/p.m3u8"
      (by decide) (by decide) (by decide)⟩

/-! ## Snapshot lemmas: find and maximum -/

theorem findSegmentBySequence_sequence : ∀ (segs : List Segment) (n : Int)
    (s : Segment), findSegmentBySequence segs n = some s → s.sequence = n := by
  intro segs
  induction segs with
  | nil => intro n s h; cases h
  | cons s0 rest ih =>
    intro n s h
    simp only [findSegmentBySequence] at h
    by_cases he : s0.sequence = n
    · rw [if_pos he] at h
      cases h
      exact he
    · rw [if_neg he] at h
      exact ih n s h

/-- The maximum sequence number in a snapshot (the spec-side notion the
capture window is defined from). -/
def maxSequence : List Segment → Option Int
  | [] => none
  | s :: rest => some (rest.foldl (fun a x => max a x.sequence) s.sequence)

theorem getLast_foldl_sequence : ∀ (rest : List Segment) (s0 : Segment),
    (rest.foldl (fun last x => if x.sequence > last.sequence then x else last)
        s0).sequence =
      rest.foldl (fun a x => max a x.sequence) s0.sequence := by
  intro rest
  induction rest with
  | nil => intro s0; rfl
  | cons x rest ih =>
    intro s0
    simp only [List.foldl_cons]
    rw [ih]
    congr 1
    by_cases h : s0.sequence < x.sequence
    · rw [if_pos h]
      exact (max_eq_right h.le).symm
    · rw [if_neg h]
      exact (max_eq_left (not_lt.mp h)).symm

/-- GetLastSegment returns a descriptor carrying the maximum sequence
number of the snapshot. -/
theorem getLastSegment_maxSequence : ∀ (segs : List Segment) (s : Segment),
    getLastSegment segs = some s → maxSequence segs = some s.sequence := by
  intro segs s h
  cases segs with
  | nil => cases h
  | cons s0 rest =>
    simp only [getLastSegment, Option.some.injEq] at h
    subst h
    simp only [maxSequence, Option.some.injEq]
    exact (getLast_foldl_sequence rest s0).symm

theorem foldl_pick_mem : ∀ (rest : List Segment) (s0 : Segment),
    rest.foldl (fun last x => if x.sequence > last.sequence then x else last) s0 = s0 ∨
    rest.foldl (fun last x => if x.sequence > last.sequence then x else last) s0 ∈
      rest := by
  intro rest
  induction rest with
  | nil => intro s0; exact Or.inl rfl
  | cons x rest ih =>
    intro s0
    simp only [List.foldl_cons]
    rcases ih (if x.sequence > s0.sequence then x else s0) with heq | hmem
    · rw [heq]
      by_cases hc : x.sequence > s0.sequence
      · rw [if_pos hc]
        exact Or.inr (List.mem_cons_self x rest)
      · rw [if_neg hc]
        exact Or.inl rfl
    · exact Or.inr (List.mem_cons_of_mem x hmem)

/-- GetLastSegment returns one of the snapshot's descriptors. -/
theorem getLastSegment_mem : ∀ (segs : List Segment) (s : Segment),
    getLastSegment segs = some s → s ∈ segs := by
  intro segs s h
  cases segs with
  | nil => cases h
  | cons s0 rest =>
    simp only [getLastSegment, Option.some.injEq] at h
    subst h
    rcases foldl_pick_mem rest s0 with heq | hmem
    · rw [heq]
      exact List.mem_cons_self s0 rest
    · exact List.mem_cons_of_mem s0 hmem

theorem extractSequenceFromURL_range (cs : List Char) (c : Int)
    (hlo : int64Min ≤ c) (hhi : c ≤ int64Max) :
    int64Min ≤ extractSequenceFromURL cs c ∧
      extractSequenceFromURL cs c ≤ int64Max := by
  unfold extractSequenceFromURL
  cases hsf : scanFor seqTsAt cs with
  | none => exact ⟨hlo, hhi⟩
  | some n =>
    simp only []
    by_cases hfit : (n : Int) ≤ int64Max
    · rw [if_pos hfit]
      refine ⟨?_, hfit⟩
      have h0 : (0 : Int) ≤ Int.ofNat n := Int.natCast_nonneg n
      have := int64Min_lt_zero
      omega
    · rw [if_neg hfit]
      exact ⟨hlo, hhi⟩

/-- Every sequence number the parser emits is an int64 value: the running
counter stays in range (declarations saturate, increments wrap) and
filename overrides are only taken when they fit. -/
theorem parseLines_sequence_range (base : String) : ∀ (lines : List (List Char))
    (c : Int) (dur : Option (List Char)), int64Min ≤ c → c ≤ int64Max →
    ∀ s ∈ parseLines base lines c dur,
      int64Min ≤ s.sequence ∧ s.sequence ≤ int64Max := by
  intro lines
  induction lines with
  | nil =>
    intro c dur _ _ s hs
    cases hs
  | cons l rest ih =>
    intro c dur hlo hhi s hs
    rw [parseLines_cons] at hs
    rcases hk : classifyLine l with n | tok | cs | _ <;> rw [hk] at hs <;>
      simp only [] at hs
    · obtain ⟨h1, h2⟩ := atoiClamp_range n
      have := int64Min_lt_zero
      exact ih _ dur (by omega) h2 s hs
    · exact ih _ _ hlo hhi s hs
    · rcases List.mem_cons.mp hs with rfl | hs1
      · exact extractSequenceFromURL_range cs c hlo hhi
      · obtain ⟨hw1, hw2⟩ := wrap64_range (c + 1)
        exact ih _ _ hw1 hw2 s hs1
    · exact ih _ _ hlo hhi s hs

theorem parsePlaylist_sequence_range (content base : String) :
    ∀ s ∈ parsePlaylist content base,
      int64Min ≤ s.sequence ∧ s.sequence ≤ int64Max := by
  intro s hs
  have := int64Min_lt_zero
  have := int64Max_pos
  exact parseLines_sequence_range base _ 0 none (by omega) (by omega) s hs

/-! ## consecFrom lemmas -/

theorem mem_consecFrom : ∀ (k : Nat) (c x : Int),
    x ∈ consecFrom c k ↔ c ≤ x ∧ x < c + k := by
  intro k
  induction k with
  | zero =>
    intro c x
    simp only [consecFrom, List.not_mem_nil, false_iff]
    omega
  | succ k ih =>
    intro c x
    simp only [consecFrom, List.mem_cons, ih]
    omega

theorem chain'_lt_consecFrom (k : Nat) : ∀ c : Int,
    List.Chain' (fun a b : Int => a < b) (consecFrom c k) := by
  induction k with
  | zero => intro c; simp [consecFrom]
  | succ k ih =>
    intro c
    rw [consecFrom_succ]
    cases k with
    | zero => simp [consecFrom]
    | succ k' =>
      rw [consecFrom_succ]
      exact List.chain'_cons.mpr ⟨by omega, by rw [← consecFrom_succ]; exact ih (c + 1)⟩

theorem consecFrom_nodup (k : Nat) : ∀ c : Int, (consecFrom c k).Nodup := by
  induction k with
  | zero => intro c; simp [consecFrom]
  | succ k ih =>
    intro c
    simp only [consecFrom, List.nodup_cons]
    refine ⟨fun hmem => ?_, ih (c + 1)⟩
    rw [mem_consecFrom] at hmem
    omega

theorem consecFrom_snoc : ∀ (k : Nat) (c : Int),
    consecFrom c k ++ [c + k] = consecFrom c (k + 1) := by
  intro k
  induction k with
  | zero => intro c; simp [consecFrom]
  | succ k ih =>
    intro c
    rw [consecFrom_succ, consecFrom_succ c (k + 1)]
    have hc : c + ((k : Int) + 1) = (c + 1) + k := by omega
    simp only [List.cons_append]
    rw [Nat.cast_add, Nat.cast_one, hc, ih (c + 1)]

theorem chain'_lt_snoc (l : List Int) (x : Int)
    (h : List.Chain' (fun a b : Int => a < b) l) (hx : ∀ y ∈ l, y < x) :
    List.Chain' (fun a b : Int => a < b) (l ++ [x]) := by
  rw [List.chain'_append]
  refine ⟨h, List.chain'_singleton x, ?_⟩
  intro a ha b hb
  simp only [List.head?_cons, Option.mem_def, Option.some.injEq] at hb
  subst hb
  exact hx a (List.mem_of_mem_getLast? ha)

/-! ## More association-list lemmas -/

theorem alLookup_isSome_of_mem_fst {κ α : Type} [DecidableEq κ] :
    ∀ (l : List (κ × α)) (k : κ), k ∈ l.map (fun e => e.1) →
    (alLookup l k).isSome = true := by
  intro l
  induction l with
  | nil => intro k h; cases h
  | cons e rest ih =>
    intro k h
    simp only [List.map_cons, List.mem_cons] at h
    by_cases he : e.1 = k
    · cases e with
      | mk q a =>
        have hqk : q = k := he
        simp only [alLookup, if_pos hqk]
        rfl
    · cases e with
      | mk q a =>
        simp only [alLookup, if_neg he]
        rcases h with h | h
        · exact absurd h.symm he
        · exact ih k h

theorem alLookup_mem {κ α : Type} [DecidableEq κ] :
    ∀ (l : List (κ × α)) (k : κ) (a : α), alLookup l k = some a → (k, a) ∈ l := by
  intro l
  induction l with
  | nil => intro k a h; cases h
  | cons e rest ih =>
    intro k a h
    cases e with
    | mk q b =>
      simp only [alLookup] at h
      by_cases he : q = k
      · rw [if_pos he] at h
        cases h
        subst he
        exact List.mem_cons_self _ _
      · rw [if_neg he] at h
        exact List.mem_cons_of_mem _ (ih k a h)

theorem alLookup_filter_keep {α : Type} (pred : String → Bool) :
    ∀ (l : List (String × α)) (k : String), pred k = false →
    alLookup (l.filter (fun e => !(pred e.1))) k = alLookup l k := by
  intro l
  induction l with
  | nil => intro k _; rfl
  | cons e rest ih =>
    intro k hk
    cases e with
    | mk q a =>
      by_cases hq : pred q = true
      · have hne : q ≠ k := fun h => by rw [h, hk] at hq; cases hq
        have hf : ((q, a) :: rest).filter (fun e => !(pred e.1)) =
            rest.filter (fun e => !(pred e.1)) := by simp [List.filter, hq]
        rw [hf, ih k hk]
        simp only [alLookup, if_neg hne]
      · have hf : ((q, a) :: rest).filter (fun e => !(pred e.1)) =
            (q, a) :: rest.filter (fun e => !(pred e.1)) := by
          simp only [List.filter, Bool.not_eq_true] at hq ⊢
          simp [hq]
        rw [hf]
        simp only [alLookup]
        by_cases hqk : q = k
        · simp [hqk]
        · rw [if_neg hqk, if_neg hqk, ih k hk]

theorem alLookup_filter_none {α : Type} (pred : String → Bool) :
    ∀ (l : List (String × α)) (k : String), pred k = true →
    alLookup (l.filter (fun e => !(pred e.1))) k = none := by
  intro l
  induction l with
  | nil => intro k _; rfl
  | cons e rest ih =>
    intro k hk
    cases e with
    | mk q a =>
      by_cases hq : pred q = true
      · have hf : ((q, a) :: rest).filter (fun e => !(pred e.1)) =
            rest.filter (fun e => !(pred e.1)) := by simp [List.filter, hq]
        rw [hf]
        exact ih k hk
      · have hne : q ≠ k := fun h => by rw [h, hk] at hq; exact hq rfl
        have hf : ((q, a) :: rest).filter (fun e => !(pred e.1)) =
            (q, a) :: rest.filter (fun e => !(pred e.1)) := by
          simp only [List.filter, Bool.not_eq_true] at hq ⊢
          simp [hq]
        rw [hf]
        simp only [alLookup, if_neg hne]
        exact ih k hk

theorem alLookup_foldl_erase {α : Type} :
    ∀ (entries : List (Int × String)) (fs : List (String × α)) (p : String),
    (∀ e ∈ entries, e.2 ≠ p) →
    alLookup (entries.foldl (fun acc e => alErase acc e.2) fs) p = alLookup fs p := by
  intro entries
  induction entries with
  | nil => intro fs p _; rfl
  | cons e rest ih =>
    intro fs p h
    simp only [List.foldl_cons]
    rw [ih (alErase fs e.2) p (fun e' he' => h e' (List.mem_cons_of_mem e he'))]
    exact alLookup_erase_ne fs e.2 p
      (fun hp => (h e (List.mem_cons_self e rest)) hp.symm)

/-! ## Teardown lemmas -/

theorem cleanup_lookup_under (fs : FS) (m : Manager) (p : String)
    (h : isUnder m.tempDir p = true) : alLookup (cleanup fs m).1 p = none := by
  simp only [cleanup]
  exact alLookup_filter_none (isUnder m.tempDir) _ p h

theorem cleanup_lookup_outside (fs : FS) (m : Manager) (p : String)
    (h : isUnder m.tempDir p = false) (hm : ∀ e ∈ m.segments, e.2 ≠ p) :
    alLookup (cleanup fs m).1 p = alLookup fs p := by
  simp only [cleanup]
  rw [alLookup_filter_keep (isUnder m.tempDir) _ p h]
  exact alLookup_foldl_erase m.segments fs p hm

/-! ## Trace predicates: cancellation checkpoints precede network requests -/

/-- Events the polling loop may emit. -/
def IsPollEv (e : Ev) : Prop :=
  (∃ s b, e = Ev.checkPoll s b) ∨ e = Ev.reqPlaylist ∨ e = Ev.sleep

/-- Every playlist request in the trace is the initial snapshot fetch or
immediately preceded by a polling-loop cancellation checkpoint that
observed no cancellation. -/
def PollChecked (tr : List Ev) : Prop :=
  ∀ l₁ l₂, tr = l₁ ++ Ev.reqPlaylist :: l₂ →
    l₁ = [] ∨ ∃ l₀ s, l₁ = l₀ ++ [Ev.checkPoll s false]

/-- Every segment request in the trace is preceded by the per-segment
cancellation checkpoint for that sequence, which observed no
cancellation. -/
def SegChecked (tr : List Ev) : Prop :=
  ∀ l₁ l₂ s, tr = l₁ ++ Ev.reqSegment s :: l₂ → Ev.checkSeg s false ∈ l₁

theorem split_concat {α : Type} {t l₁ l₂ : List α} {e x : α}
    (h : t ++ [e] = l₁ ++ x :: l₂) :
    (∃ l₂', t = l₁ ++ x :: l₂') ∨ (l₁ = t ∧ x = e ∧ l₂ = []) := by
  rcases List.append_eq_append_iff.mp h with ⟨a', h1, h2⟩ | ⟨c', h1, h2⟩
  · cases a' with
    | nil =>
      right
      rw [List.append_nil] at h1
      rw [List.nil_append] at h2
      injection h2 with hx hl
      exact ⟨h1, hx.symm, hl.symm⟩
    | cons y ys =>
      exfalso
      rw [List.cons_append] at h2
      injection h2 with hx hl
      cases ys <;> simp at hl
  · cases c' with
    | nil =>
      right
      rw [List.append_nil] at h1
      rw [List.nil_append] at h2
      injection h2 with hx hl
      exact ⟨h1.symm, hx, hl⟩
    | cons y ys =>
      left
      rw [List.cons_append] at h2
      injection h2 with hx hl
      refine ⟨ys, ?_⟩
      rw [h1, hx]

theorem pollChecked_append {t : List Ev} {e : Ev} (h : PollChecked t)
    (he : e = Ev.reqPlaylist → t = [] ∨ ∃ l₀ s, t = l₀ ++ [Ev.checkPoll s false]) :
    PollChecked (t ++ [e]) := by
  intro l₁ l₂ hsplit
  rcases split_concat hsplit with ⟨l₂', h'⟩ | ⟨h1, h2, _⟩
  · exact h l₁ l₂' h'
  · subst h1
    exact he h2.symm

theorem segChecked_append {t : List Ev} {e : Ev} (h : SegChecked t)
    (he : ∀ s, e = Ev.reqSegment s → Ev.checkSeg s false ∈ t) :
    SegChecked (t ++ [e]) := by
  intro l₁ l₂ s hsplit
  rcases split_concat hsplit with ⟨l₂', h'⟩ | ⟨h1, h2, _⟩
  · exact h l₁ l₂' s h'
  · subst h1
    exact he s h2.symm

theorem pollChecked_init : PollChecked [Ev.reqPlaylist] := by
  intro l₁ l₂ h
  cases l₁ with
  | nil => exact Or.inl rfl
  | cons y ys =>
    exfalso
    rw [List.cons_append] at h
    injection h with h1 h2
    cases ys <;> simp at h2

theorem segChecked_init : SegChecked [Ev.reqPlaylist] := by
  intro l₁ l₂ s h
  exfalso
  cases l₁ with
  | nil =>
    rw [List.nil_append] at h
    injection h with h1 h2
    cases h1
  | cons y ys =>
    rw [List.cons_append] at h
    injection h with h1 h2
    cases ys <;> simp at h2

/-! ## Projection lemmas for the interpreter step functions -/

@[simp] theorem checkPollStep_fs (s c st) : (checkPollStep s c st).fs = st.fs := rfl
@[simp] theorem checkPollStep_mgr (s c st) : (checkPollStep s c st).mgr = st.mgr := rfl
@[simp] theorem checkPollStep_ds (s c st) : (checkPollStep s c st).ds = st.ds := rfl
@[simp] theorem checkPollStep_vis (s c st) : (checkPollStep s c st).vis = st.vis := rfl
@[simp] theorem checkPollStep_payloads (s c st) :
    (checkPollStep s c st).payloads = st.payloads := rfl
@[simp] theorem checkPollStep_dlog (s c st) : (checkPollStep s c st).dlog = st.dlog := rfl
@[simp] theorem checkPollStep_ci (s c st) : (checkPollStep s c st).ci = st.ci + 1 := rfl
@[simp] theorem checkPollStep_fi (s c st) : (checkPollStep s c st).fi = st.fi := rfl
@[simp] theorem checkPollStep_si (s c st) : (checkPollStep s c st).si = st.si := rfl
@[simp] theorem checkPollStep_tr (s c st) :
    (checkPollStep s c st).tr = st.tr ++ [Ev.checkPoll s c] := rfl

@[simp] theorem reqPlaylistStep_fs (st) : (reqPlaylistStep st).fs = st.fs := rfl
@[simp] theorem reqPlaylistStep_mgr (st) : (reqPlaylistStep st).mgr = st.mgr := rfl
@[simp] theorem reqPlaylistStep_ds (st) : (reqPlaylistStep st).ds = st.ds := rfl
@[simp] theorem reqPlaylistStep_vis (st) : (reqPlaylistStep st).vis = st.vis := rfl
@[simp] theorem reqPlaylistStep_payloads (st) :
    (reqPlaylistStep st).payloads = st.payloads := rfl
@[simp] theorem reqPlaylistStep_dlog (st) : (reqPlaylistStep st).dlog = st.dlog := rfl
@[simp] theorem reqPlaylistStep_ci (st) : (reqPlaylistStep st).ci = st.ci := rfl
@[simp] theorem reqPlaylistStep_fi (st) : (reqPlaylistStep st).fi = st.fi + 1 := rfl
@[simp] theorem reqPlaylistStep_si (st) : (reqPlaylistStep st).si = st.si := rfl
@[simp] theorem reqPlaylistStep_tr (st) :
    (reqPlaylistStep st).tr = st.tr ++ [Ev.reqPlaylist] := rfl

@[simp] theorem sleepStep_fs (st) : (sleepStep st).fs = st.fs := rfl
@[simp] theorem sleepStep_mgr (st) : (sleepStep st).mgr = st.mgr := rfl
@[simp] theorem sleepStep_ds (st) : (sleepStep st).ds = st.ds := rfl
@[simp] theorem sleepStep_vis (st) : (sleepStep st).vis = st.vis := rfl
@[simp] theorem sleepStep_payloads (st) : (sleepStep st).payloads = st.payloads := rfl
@[simp] theorem sleepStep_dlog (st) : (sleepStep st).dlog = st.dlog := rfl
@[simp] theorem sleepStep_ci (st) : (sleepStep st).ci = st.ci := rfl
@[simp] theorem sleepStep_fi (st) : (sleepStep st).fi = st.fi := rfl
@[simp] theorem sleepStep_si (st) : (sleepStep st).si = st.si := rfl
@[simp] theorem sleepStep_tr (st) : (sleepStep st).tr = st.tr ++ [Ev.sleep] := rfl

@[simp] theorem visStep_fs (cur st) : (visStep cur st).fs = st.fs := rfl
@[simp] theorem visStep_mgr (cur st) : (visStep cur st).mgr = st.mgr := rfl
@[simp] theorem visStep_ds (cur st) : (visStep cur st).ds = st.ds := rfl
@[simp] theorem visStep_vis (cur st) : (visStep cur st).vis = st.vis ++ [cur] := rfl
@[simp] theorem visStep_payloads (cur st) : (visStep cur st).payloads = st.payloads := rfl
@[simp] theorem visStep_dlog (cur st) : (visStep cur st).dlog = st.dlog := rfl
@[simp] theorem visStep_ci (cur st) : (visStep cur st).ci = st.ci := rfl
@[simp] theorem visStep_fi (cur st) : (visStep cur st).fi = st.fi := rfl
@[simp] theorem visStep_si (cur st) : (visStep cur st).si = st.si := rfl
@[simp] theorem visStep_tr (cur st) : (visStep cur st).tr = st.tr := rfl

@[simp] theorem checkSegStep_fs (s c st) : (checkSegStep s c st).fs = st.fs := rfl
@[simp] theorem checkSegStep_mgr (s c st) : (checkSegStep s c st).mgr = st.mgr := rfl
@[simp] theorem checkSegStep_ds (s c st) : (checkSegStep s c st).ds = st.ds := rfl
@[simp] theorem checkSegStep_vis (s c st) : (checkSegStep s c st).vis = st.vis := rfl
@[simp] theorem checkSegStep_payloads (s c st) :
    (checkSegStep s c st).payloads = st.payloads := rfl
@[simp] theorem checkSegStep_dlog (s c st) : (checkSegStep s c st).dlog = st.dlog := rfl
@[simp] theorem checkSegStep_ci (s c st) : (checkSegStep s c st).ci = st.ci + 1 := rfl
@[simp] theorem checkSegStep_fi (s c st) : (checkSegStep s c st).fi = st.fi := rfl
@[simp] theorem checkSegStep_si (s c st) : (checkSegStep s c st).si = st.si := rfl
@[simp] theorem checkSegStep_tr (s c st) :
    (checkSegStep s c st).tr = st.tr ++ [Ev.checkSeg s c] := rfl

@[simp] theorem dlApply_fs (cur r st) : (dlApply cur r st).fs = DLRes.fs r := rfl
@[simp] theorem dlApply_mgr (cur r st) : (dlApply cur r st).mgr = DLRes.mgr r := rfl
@[simp] theorem dlApply_ds (cur r st) : (dlApply cur r st).ds = st.ds := rfl
@[simp] theorem dlApply_vis (cur r st) : (dlApply cur r st).vis = st.vis := rfl
@[simp] theorem dlApply_payloads (cur r st) :
    (dlApply cur r st).payloads = st.payloads := rfl
@[simp] theorem dlApply_dlog (cur r st) : (dlApply cur r st).dlog = st.dlog := rfl
@[simp] theorem dlApply_ci (cur r st) : (dlApply cur r st).ci = st.ci := rfl
@[simp] theorem dlApply_fi (cur r st) : (dlApply cur r st).fi = st.fi := rfl
@[simp] theorem dlApply_si (cur r st) : (dlApply cur r st).si = st.si + 1 := rfl
@[simp] theorem dlApply_tr (cur r st) :
    (dlApply cur r st).tr =
      st.tr ++ (if DLRes.fetched r then [Ev.reqSegment cur] else []) := rfl

@[simp] theorem dlFailStep_fs (cur st) : (dlFailStep cur st).fs = st.fs := rfl
@[simp] theorem dlFailStep_mgr (cur st) : (dlFailStep cur st).mgr = st.mgr := rfl
@[simp] theorem dlFailStep_ds (cur st) : (dlFailStep cur st).ds = st.ds := rfl
@[simp] theorem dlFailStep_vis (cur st) : (dlFailStep cur st).vis = st.vis := rfl
@[simp] theorem dlFailStep_payloads (cur st) :
    (dlFailStep cur st).payloads = st.payloads := rfl
@[simp] theorem dlFailStep_dlog (cur st) :
    (dlFailStep cur st).dlog = st.dlog ++ [(cur, false)] := rfl
@[simp] theorem dlFailStep_ci (cur st) : (dlFailStep cur st).ci = st.ci := rfl
@[simp] theorem dlFailStep_fi (cur st) : (dlFailStep cur st).fi = st.fi := rfl
@[simp] theorem dlFailStep_si (cur st) : (dlFailStep cur st).si = st.si := rfl
@[simp] theorem dlFailStep_tr (cur st) : (dlFailStep cur st).tr = st.tr := rfl

@[simp] theorem dlOkStep_fs (cur b st) : (dlOkStep cur b st).fs = st.fs := rfl
@[simp] theorem dlOkStep_mgr (cur b st) : (dlOkStep cur b st).mgr = st.mgr := rfl
@[simp] theorem dlOkStep_ds (cur b st) : (dlOkStep cur b st).ds = st.ds ++ [cur] := rfl
@[simp] theorem dlOkStep_vis (cur b st) : (dlOkStep cur b st).vis = st.vis := rfl
@[simp] theorem dlOkStep_payloads (cur b st) :
    (dlOkStep cur b st).payloads = st.payloads ++ [(cur, b)] := rfl
@[simp] theorem dlOkStep_dlog (cur b st) :
    (dlOkStep cur b st).dlog = st.dlog ++ [(cur, true)] := rfl
@[simp] theorem dlOkStep_ci (cur b st) : (dlOkStep cur b st).ci = st.ci := rfl
@[simp] theorem dlOkStep_fi (cur b st) : (dlOkStep cur b st).fi = st.fi := rfl
@[simp] theorem dlOkStep_si (cur b st) : (dlOkStep cur b st).si = st.si := rfl
@[simp] theorem dlOkStep_tr (cur b st) : (dlOkStep cur b st).tr = st.tr := rfl

@[simp] theorem assembleStep_fs (fsNew st) : (assembleStep fsNew st).fs = fsNew := rfl
@[simp] theorem assembleStep_mgr (fsNew st) : (assembleStep fsNew st).mgr = st.mgr := rfl
@[simp] theorem assembleStep_ds (fsNew st) : (assembleStep fsNew st).ds = st.ds := rfl
@[simp] theorem assembleStep_vis (fsNew st) : (assembleStep fsNew st).vis = st.vis := rfl
@[simp] theorem assembleStep_payloads (fsNew st) :
    (assembleStep fsNew st).payloads = st.payloads := rfl
@[simp] theorem assembleStep_dlog (fsNew st) :
    (assembleStep fsNew st).dlog = st.dlog := rfl
@[simp] theorem assembleStep_si (fsNew st) : (assembleStep fsNew st).si = st.si := rfl
@[simp] theorem assembleStep_tr (fsNew st) :
    (assembleStep fsNew st).tr = st.tr ++ [Ev.assemble] := rfl

@[simp] theorem teardown_fs (st) : (teardown st).fs = (cleanup st.fs st.mgr).1 := rfl
@[simp] theorem teardown_mgr (st) : (teardown st).mgr = (cleanup st.fs st.mgr).2 := rfl
@[simp] theorem teardown_ds (st) : (teardown st).ds = st.ds := rfl
@[simp] theorem teardown_vis (st) : (teardown st).vis = st.vis := rfl
@[simp] theorem teardown_payloads (st) : (teardown st).payloads = st.payloads := rfl
@[simp] theorem teardown_dlog (st) : (teardown st).dlog = st.dlog := rfl
@[simp] theorem teardown_si (st) : (teardown st).si = st.si := rfl
@[simp] theorem teardown_tr (st) : (teardown st).tr = st.tr := rfl

theorem segChecked_append_list {tr : List Ev} : ∀ {t : List Ev},
    SegChecked tr → (∀ e ∈ t, ∀ s, e ≠ Ev.reqSegment s) → SegChecked (tr ++ t) := by
  intro t
  induction t using List.reverseRecOn with
  | nil => intro h _; simpa using h
  | append_singleton t' a ih =>
    intro h ht
    rw [← List.append_assoc]
    refine segChecked_append (ih h (fun e he s => ht e (List.mem_append_left _ he) s)) ?_
    intro s ha
    exact absurd ha (ht a (List.mem_append_right _ (List.mem_singleton_self a)) s)

/-! ## The polling loop specification -/

theorem pollLoop_spec (env : Env) (cfg : Config) (seq : Int) :
    ∀ (fuel retry : Nat) (st st' : St) (r : PollRes),
    pollLoop env cfg seq fuel retry st = (st', r) →
    (st'.fs = st.fs ∧ st'.mgr = st.mgr ∧ st'.ds = st.ds ∧ st'.vis = st.vis ∧
      st'.payloads = st.payloads ∧ st'.dlog = st.dlog ∧ st'.si = st.si) ∧
    (∃ t, st'.tr = st.tr ++ t ∧ (∀ e ∈ t, IsPollEv e)) ∧
    (PollChecked st.tr → PollChecked st'.tr) ∧
    (∀ s, r = .found s → s.sequence = seq) ∧
    (r = .cancelled → ∃ t₀, st'.tr = t₀ ++ [Ev.checkPoll seq true]) := by
  intro fuel
  induction fuel with
  | zero =>
    intro retry st st' r h
    rw [pollLoop] at h
    injection h with h1 h2
    subst h1
    subst h2
    refine ⟨⟨rfl, rfl, rfl, rfl, rfl, rfl, rfl⟩, ⟨[], by simp, by simp⟩,
      fun hp => hp, ?_, ?_⟩
    · intro s hs
      cases hs
    · intro hc
      cases hc
  | succ fuel ih =>
    intro retry st st' r h
    rw [pollLoop] at h
    cases hcv : env.cancel st.ci with
    | true =>
      simp only [hcv] at h
      injection h with h1 h2
      subst h1
      subst h2
      refine ⟨⟨rfl, rfl, rfl, rfl, rfl, rfl, rfl⟩,
        ⟨[Ev.checkPoll seq true], rfl, ?_⟩, ?_, ?_, ?_⟩
      · intro e he
        rw [List.mem_singleton] at he
        subst he
        exact Or.inl ⟨seq, true, rfl⟩
      · intro hp
        exact pollChecked_append hp (fun he => by cases he)
      · intro s hs
        cases hs
      · intro _
        exact ⟨st.tr, rfl⟩
    | false =>
      simp only [hcv, checkPollStep_fi] at h
      cases hpl : env.playlist st.fi with
      | none =>
        simp only [hpl] at h
        obtain ⟨hfields, ⟨t, htr, hev⟩, hpc, hfound, hcanc⟩ :=
          ih retry (sleepStep (reqPlaylistStep (checkPollStep seq false st))) st' r h
        refine ⟨?_, ⟨[Ev.checkPoll seq false, Ev.reqPlaylist, Ev.sleep] ++ t, ?_, ?_⟩,
          ?_, hfound, hcanc⟩
        · simpa using hfields
        · rw [htr]
          simp
        · rw [List.forall_mem_append]
          refine ⟨?_, hev⟩
          intro e he
          simp only [List.mem_cons, List.not_mem_nil, or_false] at he
          rcases he with rfl | rfl | rfl
          · exact Or.inl ⟨seq, false, rfl⟩
          · exact Or.inr (Or.inl rfl)
          · exact Or.inr (Or.inr rfl)
        · intro hp
          apply hpc
          have h1 := pollChecked_append (e := Ev.checkPoll seq false) hp
            (fun he => by cases he)
          have h2 := pollChecked_append (e := Ev.reqPlaylist) h1
            (fun _ => Or.inr ⟨st.tr, seq, rfl⟩)
          have h3 := pollChecked_append (e := Ev.sleep) h2 (fun he => by cases he)
          exact h3
      | some content =>
        simp only [hpl] at h
        cases hfind : findSegmentBySequence (parsePlaylist content cfg.playlistURL) seq with
        | some s =>
          simp only [hfind] at h
          injection h with h1 h2
          subst h1
          subst h2
          refine ⟨⟨rfl, rfl, rfl, rfl, rfl, rfl, rfl⟩,
            ⟨[Ev.checkPoll seq false, Ev.reqPlaylist], by simp, ?_⟩, ?_, ?_, ?_⟩
          · intro e he
            simp only [List.mem_cons, List.not_mem_nil, or_false] at he
            rcases he with rfl | rfl
            · exact Or.inl ⟨seq, false, rfl⟩
            · exact Or.inr (Or.inl rfl)
          · intro hp
            have h1 := pollChecked_append (e := Ev.checkPoll seq false) hp
              (fun he => by cases he)
            have h2 := pollChecked_append (e := Ev.reqPlaylist) h1
              (fun _ => Or.inr ⟨st.tr, seq, rfl⟩)
            exact h2
          · intro s' hs'
            injection hs' with hs'
            subst hs'
            exact findSegmentBySequence_sequence _ _ _ hfind
          · intro hc
            cases hc
        | none =>
          simp only [hfind] at h
          cases hpan : (retry % 5 == 0 || retry == 0) &&
              (getLastSegment (parsePlaylist content cfg.playlistURL)).isNone with
          | true =>
            simp only [hpan] at h
            injection h with h1 h2
            subst h1
            subst h2
            refine ⟨⟨rfl, rfl, rfl, rfl, rfl, rfl, rfl⟩,
              ⟨[Ev.checkPoll seq false, Ev.reqPlaylist], by simp, ?_⟩, ?_, ?_, ?_⟩
            · intro e he
              simp only [List.mem_cons, List.not_mem_nil, or_false] at he
              rcases he with rfl | rfl
              · exact Or.inl ⟨seq, false, rfl⟩
              · exact Or.inr (Or.inl rfl)
            · intro hp
              have h1 := pollChecked_append (e := Ev.checkPoll seq false) hp
                (fun he => by cases he)
              have h2 := pollChecked_append (e := Ev.reqPlaylist) h1
                (fun _ => Or.inr ⟨st.tr, seq, rfl⟩)
              exact h2
            · intro s hs
              cases hs
            · intro hc
              cases hc
          | false =>
            simp only [hpan] at h
            obtain ⟨hfields, ⟨t, htr, hev⟩, hpc, hfound, hcanc⟩ :=
              ih (retry + 1)
                (sleepStep (reqPlaylistStep (checkPollStep seq false st))) st' r h
            refine ⟨?_, ⟨[Ev.checkPoll seq false, Ev.reqPlaylist, Ev.sleep] ++ t, ?_, ?_⟩,
              ?_, hfound, hcanc⟩
            · simpa using hfields
            · rw [htr]
              simp
            · rw [List.forall_mem_append]
              refine ⟨?_, hev⟩
              intro e he
              simp only [List.mem_cons, List.not_mem_nil, or_false] at he
              rcases he with rfl | rfl | rfl
              · exact Or.inl ⟨seq, false, rfl⟩
              · exact Or.inr (Or.inl rfl)
              · exact Or.inr (Or.inr rfl)
            · intro hp
              apply hpc
              have h1 := pollChecked_append (e := Ev.checkPoll seq false) hp
                (fun he => by cases he)
              have h2 := pollChecked_append (e := Ev.reqPlaylist) h1
                (fun _ => Or.inr ⟨st.tr, seq, rfl⟩)
              have h3 := pollChecked_append (e := Ev.sleep) h2 (fun he => by cases he)
              exact h3

/-! ## The controller loop invariant -/

/-- Invariant at the head of each outer-loop iteration (about to process
sequence cur of the window starting at start): the visited sequences are
exactly start..cur-1; downloadedSequences is exactly the list of
successful download attempts, strictly increasing, inside the processed
part of the window; the store maps exactly those sequences to their
backing files; each backing file holds the staged payload; and every
staged payload was returned by some earlier network fetch. -/
structure LoopInv (cfg : Config) (env : Env) (start cur : Int) (st : St) : Prop where
  vis_eq : st.vis = consecFrom start (cur - start).toNat
  mgr_tmp : st.mgr.tempDir = cfg.tempDir
  entries : ∀ e ∈ st.mgr.segments, e.2 = segmentFileName cfg.tempDir e.1
  ds_dlog : st.ds = (st.dlog.filter (fun e => e.2)).map (fun e => e.1)
  dlog_vis : st.dlog.map (fun e => e.1) = st.vis
  ds_chain : List.Chain' (fun a b : Int => a < b) st.ds
  ds_bounds : ∀ s ∈ st.ds, start ≤ s ∧ s < cur
  pay_fst : st.payloads.map (fun e => e.1) = st.ds
  mgr_lookup : ∀ s : Int, alLookup st.mgr.segments s =
    if s ∈ st.ds then some (segmentFileName cfg.tempDir s) else none
  fs_pay : ∀ e ∈ st.payloads,
    alLookup st.fs (segmentFileName cfg.tempDir e.1) = some e.2
  pay_net : ∀ e ∈ st.payloads, ∃ k, k < st.si ∧ env.seg k = SegFetch.ok e.2

theorem LoopInv.not_mem_ds {cfg env start cur st} (hinv : LoopInv cfg env start cur st) :
    cur ∉ st.ds := fun hc => absurd (hinv.ds_bounds cur hc).2 (lt_irrefl cur)

theorem LoopInv.mem_ds_of_payload {cfg env start cur st}
    (hinv : LoopInv cfg env start cur st) {e : Int × Bytes} (he : e ∈ st.payloads) :
    e.1 ∈ st.ds := by
  rw [← hinv.pay_fst]
  exact List.mem_map_of_mem (fun e => e.1) he

theorem loopInv_fail_step (cfg : Config) (env : Env) (start cur : Int)
    (st st2 : St) (s : Segment) (leftover : Bytes)
    (hinv : LoopInv cfg env start cur st) (hstart : start ≤ cur)
    (hfs : st2.fs = st.fs) (hmgr : st2.mgr = st.mgr) (hds : st2.ds = st.ds)
    (hvis : st2.vis = st.vis ++ [cur]) (hpay : st2.payloads = st.payloads)
    (hdlog : st2.dlog = st.dlog) (hsi : st2.si = st.si) (hseq : s.sequence = cur) :
    LoopInv cfg env start (cur + 1)
      (dlFailStep cur (dlApply cur
        (downloadFresh st2.fs st2.mgr s (SegFetch.fail leftover)) st2)) := by
  have hf : segmentFileName st2.mgr.tempDir s.sequence = segmentFileName cfg.tempDir cur := by
    rw [hmgr, hinv.mgr_tmp, hseq]
  have h1 : start + ((cur - start).toNat : Int) = cur := by omega
  have h2 : (cur + 1 - start).toNat = (cur - start).toNat + 1 := by omega
  refine ⟨?_, ?_, ?_, ?_, ?_, ?_, ?_, ?_, ?_, ?_, ?_⟩
  · simp only [dlFailStep_vis, dlApply_vis, hvis, hinv.vis_eq, h2]
    rw [← consecFrom_snoc, h1]
  · simp only [dlFailStep_mgr, dlApply_mgr, downloadFresh, hmgr]
    exact hinv.mgr_tmp
  · simp only [dlFailStep_mgr, dlApply_mgr, downloadFresh, hmgr]
    exact hinv.entries
  · simp only [dlFailStep_ds, dlFailStep_dlog, dlApply_ds, dlApply_dlog, hds, hdlog,
      List.filter_append]
    simp [hinv.ds_dlog]
  · simp only [dlFailStep_dlog, dlFailStep_vis, dlApply_dlog, dlApply_vis, hdlog, hvis,
      List.map_append, hinv.dlog_vis]
    rfl
  · simp only [dlFailStep_ds, dlApply_ds, hds]
    exact hinv.ds_chain
  · simp only [dlFailStep_ds, dlApply_ds, hds]
    intro q hq
    have := hinv.ds_bounds q hq
    omega
  · simp only [dlFailStep_payloads, dlFailStep_ds, dlApply_payloads, dlApply_ds, hpay, hds]
    exact hinv.pay_fst
  · intro q
    simp only [dlFailStep_mgr, dlFailStep_ds, dlApply_mgr, dlApply_ds, downloadFresh,
      hmgr, hds]
    exact hinv.mgr_lookup q
  · intro e he
    simp only [dlFailStep_payloads, dlApply_payloads, hpay] at he
    simp only [dlFailStep_fs, dlApply_fs, downloadFresh]
    have hmem : e.1 ∈ st.ds := hinv.mem_ds_of_payload he
    have hlt : e.1 < cur := (hinv.ds_bounds e.1 hmem).2
    have hne : segmentFileName cfg.tempDir e.1 ≠
        segmentFileName st2.mgr.tempDir s.sequence := by
      rw [hf]
      intro hcon
      exact absurd (segmentFileName_inj hcon) (by omega)
    rw [alLookup_erase_ne _ _ _ hne, alLookup_write_ne _ _ _ _ hne,
      alLookup_write_ne _ _ _ _ hne, hfs]
    exact hinv.fs_pay e he
  · intro e he
    simp only [dlFailStep_payloads, dlApply_payloads, hpay] at he
    simp only [dlFailStep_si, dlApply_si, hsi]
    obtain ⟨k, hk, hks⟩ := hinv.pay_net e he
    exact ⟨k, by omega, hks⟩

theorem loopInv_ok_step (cfg : Config) (env : Env) (start cur : Int)
    (st st2 : St) (s : Segment) (payload : Bytes)
    (hinv : LoopInv cfg env start cur st) (hstart : start ≤ cur)
    (hfs : st2.fs = st.fs) (hmgr : st2.mgr = st.mgr) (hds : st2.ds = st.ds)
    (hvis : st2.vis = st.vis ++ [cur]) (hpay : st2.payloads = st.payloads)
    (hdlog : st2.dlog = st.dlog) (hsi : st2.si = st.si) (hseq : s.sequence = cur)
    (hnet : env.seg st2.si = SegFetch.ok payload) :
    LoopInv cfg env start (cur + 1)
      (dlOkStep cur payload (dlApply cur
        (downloadFresh st2.fs st2.mgr s (SegFetch.ok payload)) st2)) := by
  have hf : segmentFileName st2.mgr.tempDir s.sequence = segmentFileName cfg.tempDir cur := by
    rw [hmgr, hinv.mgr_tmp, hseq]
  have h1 : start + ((cur - start).toNat : Int) = cur := by omega
  have h2 : (cur + 1 - start).toNat = (cur - start).toNat + 1 := by omega
  refine ⟨?_, ?_, ?_, ?_, ?_, ?_, ?_, ?_, ?_, ?_, ?_⟩
  · simp only [dlOkStep_vis, dlApply_vis, hvis, hinv.vis_eq, h2]
    rw [← consecFrom_snoc, h1]
  · simp only [dlOkStep_mgr, dlApply_mgr, downloadFresh, hmgr]
    exact hinv.mgr_tmp
  · simp only [dlOkStep_mgr, dlApply_mgr, downloadFresh, hmgr]
    intro e he
    simp only [alWrite, List.mem_cons] at he
    rcases he with rfl | he
    · simp only [hinv.mgr_tmp]
    · exact hinv.entries e (List.mem_of_mem_filter he)
  · simp only [dlOkStep_ds, dlOkStep_dlog, dlApply_ds, dlApply_dlog, hds, hdlog,
      List.filter_append]
    simp [hinv.ds_dlog]
  · simp only [dlOkStep_dlog, dlOkStep_vis, dlApply_dlog, dlApply_vis, hdlog, hvis,
      List.map_append, hinv.dlog_vis]
    rfl
  · simp only [dlOkStep_ds, dlApply_ds, hds]
    refine chain'_lt_snoc _ _ hinv.ds_chain ?_
    intro y hy
    exact (hinv.ds_bounds y hy).2
  · simp only [dlOkStep_ds, dlApply_ds, hds]
    intro q hq
    rw [List.mem_append, List.mem_singleton] at hq
    rcases hq with hq | rfl
    · have := hinv.ds_bounds q hq
      omega
    · omega
  · simp only [dlOkStep_payloads, dlOkStep_ds, dlApply_payloads, dlApply_ds, hpay, hds,
      List.map_append, hinv.pay_fst]
    rfl
  · intro q
    simp only [dlOkStep_mgr, dlOkStep_ds, dlApply_mgr, dlApply_ds, downloadFresh,
      hmgr, hds]
    by_cases hq : q = cur
    · subst hq
      rw [hseq, alLookup_write_self, if_pos (by simp), hinv.mgr_tmp]
    · have hw : alLookup (alWrite st.mgr.segments s.sequence
          (segmentFileName st.mgr.tempDir s.sequence)) q =
          alLookup st.mgr.segments q := by
        apply alLookup_write_ne
        rw [hseq]
        exact hq
      rw [hw, hinv.mgr_lookup q]
      have hmq : (q ∈ st.ds ++ [cur]) = (q ∈ st.ds) := by
        simp [List.mem_append, hq]
      by_cases hin : q ∈ st.ds
      · rw [if_pos hin, if_pos (by simp [hin])]
      · rw [if_neg hin, if_neg (by simp [hin, hq])]
  · intro e he
    simp only [dlOkStep_payloads, dlApply_payloads, hpay, List.mem_append,
      List.mem_singleton] at he
    simp only [dlOkStep_fs, dlApply_fs, downloadFresh]
    rcases he with he | rfl
    · have hmem : e.1 ∈ st.ds := hinv.mem_ds_of_payload he
      have hlt : e.1 < cur := (hinv.ds_bounds e.1 hmem).2
      have hne : segmentFileName cfg.tempDir e.1 ≠
          segmentFileName st2.mgr.tempDir s.sequence := by
        rw [hf]
        intro hcon
        exact absurd (segmentFileName_inj hcon) (by omega)
      rw [alLookup_write_ne _ _ _ _ hne, alLookup_write_ne _ _ _ _ hne, hfs]
      exact hinv.fs_pay e he
    · simp only [← hf]
      rw [alLookup_write_self]
  · intro e he
    simp only [dlOkStep_payloads, dlApply_payloads, hpay, List.mem_append,
      List.mem_singleton] at he
    simp only [dlOkStep_si, dlApply_si]
    rcases he with he | rfl
    · obtain ⟨k, hk, hks⟩ := hinv.pay_net e he
      exact ⟨k, by omega, hks⟩
    · exact ⟨st2.si, by omega, hnet⟩

/-! ## The outer-loop specification -/

theorem IsPollEv.ne_assemble {e : Ev} (h : IsPollEv e) : e ≠ Ev.assemble := by
  rcases h with ⟨s, b, rfl⟩ | rfl | rfl <;> intro hc <;> cases hc

theorem IsPollEv.ne_reqSegment {e : Ev} (h : IsPollEv e) (s : Int) :
    e ≠ Ev.reqSegment s := by
  rcases h with ⟨s', b, rfl⟩ | rfl | rfl <;> intro hc <;> cases hc

/-- Every path of DownloadSegment leaves the store's temporary directory
unchanged. -/
theorem downloadSegment_tempDir (fs : FS) (m : Manager) (seg : Segment)
    (net : SegFetch) :
    (downloadSegment fs m seg net).mgr.tempDir = m.tempDir := by
  unfold downloadSegment
  cases hl : alLookup m.segments seg.sequence with
  | none =>
    unfold downloadFresh
    cases net <;> rfl
  | some path =>
    simp only []
    by_cases hp : (alLookup fs path).isSome
    · rw [if_pos hp]
    · rw [if_neg hp]
      unfold downloadFresh
      cases net <;> rfl

/-- Trace-discipline part of the per-segment loop, free of the window
invariant (so it also covers runs whose int64 window arithmetic wrapped):
the checkpoint disciplines are preserved and a cancelled exit carries the
cancellation-shaped trace and teardown. -/
theorem segLoop_trace_spec (env : Env) (cfg : Config) (pollFuel : Nat)
    (target : Int) :
    ∀ (gas : Nat) (cur : Int) (st st' : St) (out : Outcome),
    segLoop env cfg pollFuel target gas cur st = (st', out) →
    st.mgr.tempDir = cfg.tempDir →
    ((PollChecked st.tr → PollChecked st'.tr) ∧
      (SegChecked st.tr → SegChecked st'.tr)) ∧
    (out = Outcome.fuelOut ∨
      (∃ ds, out = Outcome.panicked ds) ∨
      (∃ stM, out = Outcome.cancelled stM.ds ∧ st' = teardown stM ∧
        stM.mgr.tempDir = cfg.tempDir ∧
        (∃ t, stM.tr = st.tr ++ t ∧ Ev.assemble ∉ t) ∧
        (∃ t₀ s0, stM.tr = t₀ ++ [Ev.checkSeg s0 true] ∨
          stM.tr = t₀ ++ [Ev.checkPoll s0 true])) ∨
      (∃ ds err, out = Outcome.finished ds err)) := by
  intro gas
  induction gas with
  | zero =>
    intro cur st st' out h _
    rw [segLoop] at h
    injection h with h1 h2
    subst h1
    subst h2
    exact ⟨⟨fun hp => hp, fun hs => hs⟩, Or.inl rfl⟩
  | succ gas ih =>
    intro cur st st' out h hmt
    rw [segLoop] at h
    by_cases hgt : cur > target
    · rw [if_pos hgt] at h
      have hfin : (st', out) = finishRun cfg st := h.symm
      have htr : st'.tr = st.tr ++ [Ev.assemble] := by
        rw [show st' = (finishRun cfg st).1 from congrArg Prod.fst hfin]
        rfl
      refine ⟨⟨?_, ?_⟩, Or.inr (Or.inr (Or.inr
        ⟨st.ds, (mergeSegments st.fs st.mgr cfg.outputPath st.ds).2,
          congrArg Prod.snd hfin⟩))⟩
      · intro hp
        rw [htr]
        exact pollChecked_append hp (fun he => by cases he)
      · intro hs
        rw [htr]
        exact segChecked_append hs (fun s0 he => by cases he)
    · rw [if_neg hgt] at h
      cases hcv : env.cancel st.ci with
      | true =>
        simp only [visStep_ci, hcv] at h
        injection h with h1 h2
        subst h1
        subst h2
        refine ⟨⟨?_, ?_⟩, Or.inr (Or.inr (Or.inl
          ⟨checkSegStep cur true (visStep cur st), rfl, rfl, hmt,
            ⟨[Ev.checkSeg cur true], rfl, by simp⟩, ⟨st.tr, cur, Or.inl rfl⟩⟩))⟩
        · intro hp
          exact pollChecked_append hp (fun he => by cases he)
        · intro hs
          exact segChecked_append hs (fun s0 he => by cases he)
      | false =>
        simp only [visStep_ci, hcv] at h
        rcases hpoll : pollLoop env cfg cur pollFuel 0
            (checkSegStep cur false (visStep cur st)) with ⟨st2, pres⟩
        rw [hpoll] at h
        obtain ⟨⟨hfs2, hmgr2, hds2, hvis2, hpay2, hdlog2, hsi2⟩,
          ⟨t, htr2, hev⟩, hpc2, hfound2, hcanc2⟩ :=
          pollLoop_spec env cfg cur pollFuel 0 _ st2 pres hpoll
        simp only [checkSegStep_fs, checkSegStep_mgr, checkSegStep_ds, checkSegStep_vis,
          checkSegStep_payloads, checkSegStep_dlog, checkSegStep_si, checkSegStep_tr,
          visStep_fs, visStep_mgr, visStep_ds, visStep_vis, visStep_payloads,
          visStep_dlog, visStep_si, visStep_tr] at hfs2 hmgr2 hds2 hvis2
        simp only [checkSegStep_fs, checkSegStep_tr, visStep_fs, visStep_tr,
          checkSegStep_payloads, visStep_payloads, checkSegStep_dlog, visStep_dlog,
          checkSegStep_si, visStep_si] at hpay2 hdlog2 hsi2 htr2 hpc2
        cases pres with
        | cancelled =>
          injection h with h1 h2
          subst h1
          subst h2
          refine ⟨⟨?_, ?_⟩, Or.inr (Or.inr (Or.inl ⟨st2, rfl, rfl, ?_, ?_, ?_⟩))⟩
          · intro hp
            exact hpc2 (pollChecked_append hp (fun he => by cases he))
          · intro hs
            rw [show (teardown st2).tr = st2.tr from rfl, htr2]
            exact segChecked_append_list
              (segChecked_append hs (fun s0 he => by cases he))
              (fun e he s0 => (hev e he).ne_reqSegment s0)
          · rw [hmgr2]
            exact hmt
          · refine ⟨[Ev.checkSeg cur false] ++ t, by rw [htr2]; simp, ?_⟩
            intro hmem
            rw [List.mem_append, List.mem_singleton] at hmem
            rcases hmem with hmem | hmem
            · cases hmem
            · exact (hev _ hmem).ne_assemble rfl
          · obtain ⟨t₀, ht₀⟩ := hcanc2 rfl
            exact ⟨t₀, cur, Or.inr ht₀⟩
        | panicked =>
          injection h with h1 h2
          subst h1
          subst h2
          refine ⟨⟨?_, ?_⟩, Or.inr (Or.inl ⟨st2.ds, rfl⟩)⟩
          · intro hp
            exact hpc2 (pollChecked_append hp (fun he => by cases he))
          · intro hs
            rw [show (teardown st2).tr = st2.tr from rfl, htr2]
            exact segChecked_append_list
              (segChecked_append hs (fun s0 he => by cases he))
              (fun e he s0 => (hev e he).ne_reqSegment s0)
        | fuelOut =>
          injection h with h1 h2
          subst h1
          subst h2
          refine ⟨⟨?_, ?_⟩, Or.inl rfl⟩
          · intro hp
            exact hpc2 (pollChecked_append hp (fun he => by cases he))
          · intro hs
            rw [htr2]
            exact segChecked_append_list
              (segChecked_append hs (fun s0 he => by cases he))
              (fun e he s0 => (hev e he).ne_reqSegment s0)
        | found s =>
          simp only [] at h
          have hcheckmem : Ev.checkSeg cur false ∈ st2.tr := by
            rw [htr2]
            exact List.mem_append_left _ (List.mem_append_right _ (by simp))
          cases hres : (downloadSegment st2.fs st2.mgr s (env.seg st2.si)).result with
          | none =>
            rw [hres] at h
            obtain ⟨⟨hpc4, hsc4⟩, hbranch⟩ :=
              ih (wrap64 (cur + 1))
                (dlFailStep cur (dlApply cur
                  (downloadSegment st2.fs st2.mgr s (env.seg st2.si)) st2))
                st' out h
                (by
                  rw [dlFailStep_mgr, dlApply_mgr, downloadSegment_tempDir, hmgr2]
                  exact hmt)
            have htr4 : (dlFailStep cur (dlApply cur
                (downloadSegment st2.fs st2.mgr s (env.seg st2.si)) st2)).tr =
                st2.tr ++ (if (downloadSegment st2.fs st2.mgr s
                  (env.seg st2.si)).fetched then [Ev.reqSegment cur] else []) := rfl
            refine ⟨⟨?_, ?_⟩, ?_⟩
            · intro hp
              have p1 := pollChecked_append (e := Ev.checkSeg cur false) hp
                (fun he => by cases he)
              have p2 := hpc2 p1
              apply hpc4
              rw [htr4]
              cases hfet : (downloadSegment st2.fs st2.mgr s (env.seg st2.si)).fetched
              · simpa using p2
              · exact pollChecked_append p2 (fun he => by cases he)
            · intro hs
              have s1 := segChecked_append (e := Ev.checkSeg cur false) hs
                (fun s0 he => by cases he)
              have s2 : SegChecked st2.tr := by
                rw [htr2]
                exact segChecked_append_list s1
                  (fun e he s0 => (hev e he).ne_reqSegment s0)
              apply hsc4
              rw [htr4]
              cases hfet : (downloadSegment st2.fs st2.mgr s (env.seg st2.si)).fetched
              · simpa using s2
              · exact segChecked_append s2
                  (fun s0 he => by injection he with he'; subst he'; exact hcheckmem)
            · rcases hbranch with hb | hb | hb | hb
              · exact Or.inl hb
              · exact Or.inr (Or.inl hb)
              · obtain ⟨stM, ho, hst, hmt', ⟨t', htm', hna⟩, hend⟩ := hb
                refine Or.inr (Or.inr (Or.inl ⟨stM, ho, hst, hmt',
                  ⟨[Ev.checkSeg cur false] ++ t ++ (if (downloadSegment st2.fs st2.mgr
                      s (env.seg st2.si)).fetched then [Ev.reqSegment cur] else []) ++
                    t', ?_, ?_⟩, hend⟩))
                · rw [htm', htr4, htr2]
                  simp [List.append_assoc]
                · intro hmem
                  simp only [List.append_assoc, List.mem_append, List.mem_singleton]
                    at hmem
                  rcases hmem with hmem | hmem | hmem | hmem
                  · cases hmem
                  · exact (hev _ hmem).ne_assemble rfl
                  · cases hfet : (downloadSegment st2.fs st2.mgr s
                        (env.seg st2.si)).fetched <;> rw [hfet] at hmem <;>
                      simp at hmem
                  · exact hna hmem
              · exact Or.inr (Or.inr (Or.inr hb))
          | some p =>
            rw [hres] at h
            obtain ⟨⟨hpc4, hsc4⟩, hbranch⟩ :=
              ih (wrap64 (cur + 1))
                (dlOkStep cur (match env.seg st2.si with
                    | SegFetch.ok b => b
                    | SegFetch.fail leftover => [])
                  (dlApply cur
                    (downloadSegment st2.fs st2.mgr s (env.seg st2.si)) st2))
                st' out h
                (by
                  rw [dlOkStep_mgr, dlApply_mgr, downloadSegment_tempDir, hmgr2]
                  exact hmt)
            have htr4 : (dlOkStep cur (match env.seg st2.si with
                | SegFetch.ok b => b
                | SegFetch.fail leftover => [])
                (dlApply cur
                  (downloadSegment st2.fs st2.mgr s (env.seg st2.si)) st2)).tr =
                st2.tr ++ (if (downloadSegment st2.fs st2.mgr s
                  (env.seg st2.si)).fetched then [Ev.reqSegment cur] else []) := rfl
            refine ⟨⟨?_, ?_⟩, ?_⟩
            · intro hp
              have p1 := pollChecked_append (e := Ev.checkSeg cur false) hp
                (fun he => by cases he)
              have p2 := hpc2 p1
              apply hpc4
              rw [htr4]
              cases hfet : (downloadSegment st2.fs st2.mgr s (env.seg st2.si)).fetched
              · simpa using p2
              · exact pollChecked_append p2 (fun he => by cases he)
            · intro hs
              have s1 := segChecked_append (e := Ev.checkSeg cur false) hs
                (fun s0 he => by cases he)
              have s2 : SegChecked st2.tr := by
                rw [htr2]
                exact segChecked_append_list s1
                  (fun e he s0 => (hev e he).ne_reqSegment s0)
              apply hsc4
              rw [htr4]
              cases hfet : (downloadSegment st2.fs st2.mgr s (env.seg st2.si)).fetched
              · simpa using s2
              · exact segChecked_append s2
                  (fun s0 he => by injection he with he'; subst he'; exact hcheckmem)
            · rcases hbranch with hb | hb | hb | hb
              · exact Or.inl hb
              · exact Or.inr (Or.inl hb)
              · obtain ⟨stM, ho, hst, hmt', ⟨t', htm', hna⟩, hend⟩ := hb
                refine Or.inr (Or.inr (Or.inl ⟨stM, ho, hst, hmt',
                  ⟨[Ev.checkSeg cur false] ++ t ++ (if (downloadSegment st2.fs st2.mgr
                      s (env.seg st2.si)).fetched then [Ev.reqSegment cur] else []) ++
                    t', ?_, ?_⟩, hend⟩))
                · rw [htm', htr4, htr2]
                  simp [List.append_assoc]
                · intro hmem
                  simp only [List.append_assoc, List.mem_append, List.mem_singleton]
                    at hmem
                  rcases hmem with hmem | hmem | hmem | hmem
                  · cases hmem
                  · exact (hev _ hmem).ne_assemble rfl
                  · cases hfet : (downloadSegment st2.fs st2.mgr s
                        (env.seg st2.si)).fetched <;> rw [hfet] at hmem <;>
                      simp at hmem
                  · exact hna hmem
              · exact Or.inr (Or.inr (Or.inr hb))

/-- When targetSequence has wrapped to exactly MaxInt64, the loop guard
currentSeq > targetSequence can never hold (currentSeq is itself an int64
value), so the loop never falls through to assembly: no run finishes. -/
theorem segLoop_max_target_no_finish (env : Env) (cfg : Config) (pollFuel : Nat) :
    ∀ (gas : Nat) (cur : Int) (st st' : St) (out : Outcome),
    segLoop env cfg pollFuel int64Max gas cur st = (st', out) →
    cur ≤ int64Max →
    ∀ ds err, out ≠ Outcome.finished ds err := by
  intro gas
  induction gas with
  | zero =>
    intro cur st st' out h _ ds err
    rw [segLoop] at h
    injection h with h1 h2
    subst h2
    intro hc
    cases hc
  | succ gas ih =>
    intro cur st st' out h hcur ds err
    rw [segLoop] at h
    rw [if_neg (by omega : ¬cur > int64Max)] at h
    cases hcv : env.cancel st.ci with
    | true =>
      simp only [visStep_ci, hcv] at h
      injection h with h1 h2
      subst h2
      intro hc
      cases hc
    | false =>
      simp only [visStep_ci, hcv] at h
      rcases hpoll : pollLoop env cfg cur pollFuel 0
          (checkSegStep cur false (visStep cur st)) with ⟨st2, pres⟩
      rw [hpoll] at h
      cases pres with
      | cancelled =>
        injection h with h1 h2
        subst h2
        intro hc
        cases hc
      | panicked =>
        injection h with h1 h2
        subst h2
        intro hc
        cases hc
      | fuelOut =>
        injection h with h1 h2
        subst h2
        intro hc
        cases hc
      | found s =>
        simp only [] at h
        cases hres : (downloadSegment st2.fs st2.mgr s (env.seg st2.si)).result with
        | none =>
          rw [hres] at h
          exact ih (wrap64 (cur + 1)) _ st' out h (wrap64_range _).2 ds err
        | some p =>
          rw [hres] at h
          exact ih (wrap64 (cur + 1)) _ st' out h (wrap64_range _).2 ds err

theorem segLoop_spec (env : Env) (cfg : Config) (pollFuel : Nat) (start target : Int) :
    ∀ (gas : Nat) (cur : Int) (st st' : St) (out : Outcome),
    segLoop env cfg pollFuel target gas cur st = (st', out) →
    start ≤ cur → (cur ≤ target + 1 ∨ cur = start) →
    int64Min ≤ start → target < int64Max →
    LoopInv cfg env start cur st →
    ((PollChecked st.tr → PollChecked st'.tr) ∧
      (SegChecked st.tr → SegChecked st'.tr)) ∧
    (out = Outcome.fuelOut ∨
      (∃ ds, out = Outcome.panicked ds) ∨
      (∃ stM, out = Outcome.cancelled stM.ds ∧ st' = teardown stM ∧
        stM.mgr.tempDir = cfg.tempDir ∧
        (∃ t, stM.tr = st.tr ++ t ∧ Ev.assemble ∉ t) ∧
        (∃ t₀ s0, stM.tr = t₀ ++ [Ev.checkSeg s0 true] ∨
          stM.tr = t₀ ++ [Ev.checkPoll s0 true])) ∨
      (∃ stM curF, (st', out) = finishRun cfg stM ∧
        LoopInv cfg env start curF stM ∧
        (curF - start).toNat = (target + 1 - start).toNat)) := by
  intro gas
  induction gas with
  | zero =>
    intro cur st st' out h _ _ _ _ _
    rw [segLoop] at h
    injection h with h1 h2
    subst h1
    subst h2
    exact ⟨⟨fun hp => hp, fun hs => hs⟩, Or.inl rfl⟩
  | succ gas ih =>
    intro cur st st' out h hstart hpre hrlo hrhi hinv
    rw [segLoop] at h
    by_cases hgt : cur > target
    · rw [if_pos hgt] at h
      have hfin : (st', out) = finishRun cfg st := h.symm
      have htr : st'.tr = st.tr ++ [Ev.assemble] := by
        rw [show st' = (finishRun cfg st).1 from congrArg Prod.fst hfin]
        rfl
      refine ⟨⟨?_, ?_⟩, Or.inr (Or.inr (Or.inr ⟨st, cur, hfin, hinv, by omega⟩))⟩
      · intro hp
        rw [htr]
        exact pollChecked_append hp (fun he => by cases he)
      · intro hs
        rw [htr]
        exact segChecked_append hs (fun s0 he => by cases he)
    · rw [if_neg hgt] at h
      cases hcv : env.cancel st.ci with
      | true =>
        simp only [visStep_ci, hcv] at h
        injection h with h1 h2
        subst h1
        subst h2
        refine ⟨⟨?_, ?_⟩, Or.inr (Or.inr (Or.inl
          ⟨checkSegStep cur true (visStep cur st), rfl, rfl, hinv.mgr_tmp,
            ⟨[Ev.checkSeg cur true], rfl, by simp⟩, ⟨st.tr, cur, Or.inl rfl⟩⟩))⟩
        · intro hp
          exact pollChecked_append hp (fun he => by cases he)
        · intro hs
          exact segChecked_append hs (fun s0 he => by cases he)
      | false =>
        simp only [visStep_ci, hcv] at h
        rcases hpoll : pollLoop env cfg cur pollFuel 0
            (checkSegStep cur false (visStep cur st)) with ⟨st2, pres⟩
        rw [hpoll] at h
        obtain ⟨⟨hfs2, hmgr2, hds2, hvis2, hpay2, hdlog2, hsi2⟩,
          ⟨t, htr2, hev⟩, hpc2, hfound2, hcanc2⟩ :=
          pollLoop_spec env cfg cur pollFuel 0 _ st2 pres hpoll
        simp only [checkSegStep_fs, checkSegStep_mgr, checkSegStep_ds, checkSegStep_vis,
          checkSegStep_payloads, checkSegStep_dlog, checkSegStep_si, checkSegStep_tr,
          visStep_fs, visStep_mgr, visStep_ds, visStep_vis, visStep_payloads,
          visStep_dlog, visStep_si, visStep_tr] at hfs2 hmgr2 hds2 hvis2
        simp only [checkSegStep_fs, checkSegStep_tr, visStep_fs, visStep_tr,
          checkSegStep_payloads, visStep_payloads, checkSegStep_dlog, visStep_dlog,
          checkSegStep_si, visStep_si] at hpay2 hdlog2 hsi2 htr2 hpc2
        cases pres with
        | cancelled =>
          injection h with h1 h2
          subst h1
          subst h2
          refine ⟨⟨?_, ?_⟩, Or.inr (Or.inr (Or.inl ⟨st2, rfl, rfl, ?_, ?_, ?_⟩))⟩
          · intro hp
            exact hpc2 (pollChecked_append hp (fun he => by cases he))
          · intro hs
            rw [show (teardown st2).tr = st2.tr from rfl, htr2]
            exact segChecked_append_list
              (segChecked_append hs (fun s0 he => by cases he))
              (fun e he s0 => (hev e he).ne_reqSegment s0)
          · rw [hmgr2]
            exact hinv.mgr_tmp
          · refine ⟨[Ev.checkSeg cur false] ++ t, by rw [htr2]; simp, ?_⟩
            intro hmem
            rw [List.mem_append, List.mem_singleton] at hmem
            rcases hmem with hmem | hmem
            · cases hmem
            · exact (hev _ hmem).ne_assemble rfl
          · obtain ⟨t₀, ht₀⟩ := hcanc2 rfl
            exact ⟨t₀, cur, Or.inr ht₀⟩
        | panicked =>
          injection h with h1 h2
          subst h1
          subst h2
          refine ⟨⟨?_, ?_⟩, Or.inr (Or.inl ⟨st2.ds, rfl⟩)⟩
          · intro hp
            exact hpc2 (pollChecked_append hp (fun he => by cases he))
          · intro hs
            rw [show (teardown st2).tr = st2.tr from rfl, htr2]
            exact segChecked_append_list
              (segChecked_append hs (fun s0 he => by cases he))
              (fun e he s0 => (hev e he).ne_reqSegment s0)
        | fuelOut =>
          injection h with h1 h2
          subst h1
          subst h2
          refine ⟨⟨?_, ?_⟩, Or.inl rfl⟩
          · intro hp
            exact hpc2 (pollChecked_append hp (fun he => by cases he))
          · intro hs
            rw [htr2]
            exact segChecked_append_list
              (segChecked_append hs (fun s0 he => by cases he))
              (fun e he s0 => (hev e he).ne_reqSegment s0)
        | found s =>
          have hseq : s.sequence = cur := hfound2 s rfl
          have hlook : alLookup st2.mgr.segments s.sequence = none := by
            rw [hmgr2, hseq, hinv.mgr_lookup cur, if_neg hinv.not_mem_ds]
          have hdl : downloadSegment st2.fs st2.mgr s (env.seg st2.si) =
              downloadFresh st2.fs st2.mgr s (env.seg st2.si) := by
            simp only [downloadSegment, hlook]
          simp only [] at h
          rw [hdl] at h
          have hcheckmem : Ev.checkSeg cur false ∈ st2.tr := by
            rw [htr2]
            exact List.mem_append_left _ (List.mem_append_right _ (by simp))
          cases hnet : env.seg st2.si with
          | fail leftover =>
            rw [hnet] at h
            have hinv4 := loopInv_fail_step cfg env start cur st st2 s leftover hinv
              hstart hfs2 hmgr2 hds2 hvis2 hpay2 hdlog2 hsi2 hseq
            have hwr : wrap64 (cur + 1) = cur + 1 :=
              wrap64_eq_self (by omega) (by omega)
            have h' : segLoop env cfg pollFuel target gas (wrap64 (cur + 1))
                (dlFailStep cur (dlApply cur
                  (downloadFresh st2.fs st2.mgr s (SegFetch.fail leftover)) st2)) =
                (st', out) := h
            rw [hwr] at h'
            obtain ⟨⟨hpc4, hsc4⟩, hbranch⟩ := ih (cur + 1)
              (dlFailStep cur (dlApply cur
                (downloadFresh st2.fs st2.mgr s (SegFetch.fail leftover)) st2))
              st' out h' (by omega) (Or.inl (by omega)) hrlo hrhi hinv4
            have htr4 : (dlFailStep cur (dlApply cur
                (downloadFresh st2.fs st2.mgr s (SegFetch.fail leftover)) st2)).tr =
                st2.tr ++ [Ev.reqSegment cur] := rfl
            refine ⟨⟨?_, ?_⟩, ?_⟩
            · intro hp
              have p1 := pollChecked_append (e := Ev.checkSeg cur false) hp
                (fun he => by cases he)
              have p2 := hpc2 p1
              have p3 := pollChecked_append (e := Ev.reqSegment cur) p2
                (fun he => by cases he)
              exact hpc4 (by rw [htr4]; exact p3)
            · intro hs
              have s1 := segChecked_append (e := Ev.checkSeg cur false) hs
                (fun s0 he => by cases he)
              have s2 : SegChecked st2.tr := by
                rw [htr2]
                exact segChecked_append_list s1 (fun e he s0 => (hev e he).ne_reqSegment s0)
              have s3 := segChecked_append (e := Ev.reqSegment cur) s2
                (fun s0 he => by injection he with he'; subst he'; exact hcheckmem)
              exact hsc4 (by rw [htr4]; exact s3)
            · rcases hbranch with hb | hb | hb | hb
              · exact Or.inl hb
              · exact Or.inr (Or.inl hb)
              · obtain ⟨stM, ho, hst, hmt, ⟨t', htm, hna⟩, hend⟩ := hb
                refine Or.inr (Or.inr (Or.inl ⟨stM, ho, hst, hmt,
                  ⟨[Ev.checkSeg cur false] ++ t ++ [Ev.reqSegment cur] ++ t', ?_, ?_⟩,
                  hend⟩))
                · rw [htm, htr4, htr2]
                  simp [List.append_assoc]
                · intro hmem
                  simp only [List.append_assoc, List.mem_append, List.mem_singleton] at hmem
                  rcases hmem with hmem | hmem | hmem | hmem
                  · cases hmem
                  · exact (hev _ hmem).ne_assemble rfl
                  · cases hmem
                  · exact hna hmem
              · obtain ⟨stM, curF, hfin, hinvM, hnat⟩ := hb
                exact Or.inr (Or.inr (Or.inr ⟨stM, curF, hfin, hinvM, hnat⟩))
          | ok payload =>
            rw [hnet] at h
            have hinv4 := loopInv_ok_step cfg env start cur st st2 s payload hinv
              hstart hfs2 hmgr2 hds2 hvis2 hpay2 hdlog2 hsi2 hseq hnet
            have hwr : wrap64 (cur + 1) = cur + 1 :=
              wrap64_eq_self (by omega) (by omega)
            have h' : segLoop env cfg pollFuel target gas (wrap64 (cur + 1))
                (dlOkStep cur payload (dlApply cur
                  (downloadFresh st2.fs st2.mgr s (SegFetch.ok payload)) st2)) =
                (st', out) := h
            rw [hwr] at h'
            obtain ⟨⟨hpc4, hsc4⟩, hbranch⟩ := ih (cur + 1)
              (dlOkStep cur payload (dlApply cur
                (downloadFresh st2.fs st2.mgr s (SegFetch.ok payload)) st2))
              st' out h' (by omega) (Or.inl (by omega)) hrlo hrhi hinv4
            have htr4 : (dlOkStep cur payload (dlApply cur
                (downloadFresh st2.fs st2.mgr s (SegFetch.ok payload)) st2)).tr =
                st2.tr ++ [Ev.reqSegment cur] := rfl
            refine ⟨⟨?_, ?_⟩, ?_⟩
            · intro hp
              have p1 := pollChecked_append (e := Ev.checkSeg cur false) hp
                (fun he => by cases he)
              have p2 := hpc2 p1
              have p3 := pollChecked_append (e := Ev.reqSegment cur) p2
                (fun he => by cases he)
              exact hpc4 (by rw [htr4]; exact p3)
            · intro hs
              have s1 := segChecked_append (e := Ev.checkSeg cur false) hs
                (fun s0 he => by cases he)
              have s2 : SegChecked st2.tr := by
                rw [htr2]
                exact segChecked_append_list s1 (fun e he s0 => (hev e he).ne_reqSegment s0)
              have s3 := segChecked_append (e := Ev.reqSegment cur) s2
                (fun s0 he => by injection he with he'; subst he'; exact hcheckmem)
              exact hsc4 (by rw [htr4]; exact s3)
            · rcases hbranch with hb | hb | hb | hb
              · exact Or.inl hb
              · exact Or.inr (Or.inl hb)
              · obtain ⟨stM, ho, hst, hmt, ⟨t', htm, hna⟩, hend⟩ := hb
                refine Or.inr (Or.inr (Or.inl ⟨stM, ho, hst, hmt,
                  ⟨[Ev.checkSeg cur false] ++ t ++ [Ev.reqSegment cur] ++ t', ?_, ?_⟩,
                  hend⟩))
                · rw [htm, htr4, htr2]
                  simp [List.append_assoc]
                · intro hmem
                  simp only [List.append_assoc, List.mem_append, List.mem_singleton] at hmem
                  rcases hmem with hmem | hmem | hmem | hmem
                  · cases hmem
                  · exact (hev _ hmem).ne_assemble rfl
                  · cases hmem
                  · exact hna hmem
              · obtain ⟨stM, curF, hfin, hinvM, hnat⟩ := hb
                exact Or.inr (Or.inr (Or.inr ⟨stM, curF, hfin, hinvM, hnat⟩))

/-! ## Top-level run lemmas and the remaining claims -/

/-- The run state right after the initial snapshot fetch. -/
def initSt (cfg : Config) (fs0 : FS) : St :=
  { fs := fs0, mgr := { tempDir := cfg.tempDir, segments := [] },
    ds := [], vis := [], payloads := [], dlog := [],
    ci := 0, fi := 1, si := 0, tr := [Ev.reqPlaylist] }

theorem getLastSegment_isEmpty_false {segs : List Segment} {s : Segment}
    (h : getLastSegment segs = some s) : segs.isEmpty = false := by
  cases segs with
  | nil => cases h
  | cons a l => rfl

theorem executeCapture_run_shape (env : Env) (cfg : Config) (pollFuel gas : Nat)
    (fs0 : FS) (content : String)
    (hpl : env.playlist 0 = some content)
    (hne : (executeCapture env cfg pollFuel gas fs0).2 ≠ Outcome.fatal) :
    ∃ lastSeg, getLastSegment (parsePlaylist content cfg.playlistURL) = some lastSeg ∧
      executeCapture env cfg pollFuel gas fs0 =
        segLoop env cfg pollFuel (wrap64 (lastSeg.sequence + cfg.count - 1)) gas
          lastSeg.sequence (initSt cfg fs0) := by
  cases hemp : (parsePlaylist content cfg.playlistURL).isEmpty with
  | true =>
    exfalso
    apply hne
    simp [executeCapture, hpl, hemp]
  | false =>
    cases hlast : getLastSegment (parsePlaylist content cfg.playlistURL) with
    | none =>
      exfalso
      apply hne
      simp [executeCapture, hpl, hemp, hlast]
    | some lastSeg =>
      refine ⟨lastSeg, rfl, ?_⟩
      simp [executeCapture, hpl, hemp, hlast]
      rfl

theorem initInv (cfg : Config) (env : Env) (start : Int) (fs0 : FS) :
    LoopInv cfg env start start (initSt cfg fs0) := by
  refine ⟨?_, rfl, ?_, rfl, rfl, ?_, ?_, rfl, ?_, ?_, ?_⟩
  · show ([] : List Int) = consecFrom start (start - start).toNat
    rw [show (start - start).toNat = 0 from by omega]
    rfl
  · intro e he
    cases he
  · exact List.chain'_nil
  · intro s hs
    cases hs
  · intro s
    simp [initSt, alLookup]
  · intro e he
    cases he
  · intro e he
    cases he


theorem maxSequence_getLastSegment {segs : List Segment} {mx : Int}
    (h : maxSequence segs = some mx) :
    ∃ s, getLastSegment segs = some s ∧ s.sequence = mx := by
  cases segs with
  | nil => cases h
  | cons s0 rest =>
    have hs : getLastSegment (s0 :: rest) =
        some (rest.foldl (fun last x => if x.sequence > last.sequence then x else last) s0) :=
      rfl
    have hmx := getLastSegment_maxSequence _ _ hs
    rw [h] at hmx
    injection hmx with hmx
    exact ⟨_, hs, hmx.symm⟩

def cfgC2x : Config :=
  { playlistURL := "http://h/p.m3u8", outputPath := "out.ts", count := 3,
    tempDir := "tmp" }

def envC2x : Env :=
  { cancel := fun _ => false
    playlist := fun _ => some "x_9223372036854775807.ts"
    seg := fun _ => SegFetch.ok [1] }

/-- C2 counterexample: a first snapshot whose maximum sequence is MaxInt64
with requested count 3.  The claim's target start + count - 1 overflows
int64, the code's targetSequence wraps to MinInt64 + 2, the loop guard
fails immediately, and the run reaches assembly having visited no sequence
at all — not the claimed three-element window. -/
theorem c2_counterexample :
    maxSequence (parsePlaylist "x_9223372036854775807.ts" cfgC2x.playlistURL) =
      some int64Max ∧
    wrap64 (int64Max + cfgC2x.count - 1) = int64Min + 1 ∧
    (executeCapture envC2x cfgC2x 3 3 []).2 = Outcome.finished [] none ∧
    (executeCapture envC2x cfgC2x 3 3 []).1.vis = [] ∧
    consecFrom int64Max (cfgC2x.count).toNat ≠ [] := by
  decide

/-- C2 as amended: the capture window is fixed from the first snapshot:
start is the maximum sequence number of the first snapshot and the target
is the int64 value of start + requested_count - 1 (which the code computes
in Go int arithmetic, so it wraps on overflow), computed once and never
recomputed whatever the later snapshots contain.  When
start + requested_count - 1 lies within int64 range — every realistic
capture — a run that reaches assembly has iterated the per-segment loop
exactly over start..target in strictly ascending order. -/
theorem c2_window (env : Env) (cfg : Config) (pollFuel gas : Nat) (fs0 : FS)
    (content : String) (mx : Int) (ds : List Int) (err : Option MergeErr)
    (hpl : env.playlist 0 = some content)
    (hmax : maxSequence (parsePlaylist content cfg.playlistURL) = some mx)
    (hlo : int64Min ≤ mx + cfg.count - 1)
    (hhi : mx + cfg.count - 1 ≤ int64Max)
    (hrun : (executeCapture env cfg pollFuel gas fs0).2 = Outcome.finished ds err) :
    (executeCapture env cfg pollFuel gas fs0).1.vis = consecFrom mx cfg.count.toNat ∧
    List.Chain' (fun a b : Int => a < b)
      ((executeCapture env cfg pollFuel gas fs0).1.vis) := by
  obtain ⟨s, hs, hmx⟩ := maxSequence_getLastSegment hmax
  obtain ⟨lastSeg, hlast, heq⟩ := executeCapture_run_shape env cfg pollFuel gas fs0
    content hpl (by rw [hrun]; intro hc; cases hc)
  injection (hs.symm.trans hlast) with hsl
  subst hsl
  have hrange := parsePlaylist_sequence_range content cfg.playlistURL s
    (getLastSegment_mem _ _ hlast)
  have hw : wrap64 (s.sequence + cfg.count - 1) = s.sequence + cfg.count - 1 := by
    rw [hmx]
    exact wrap64_eq_self hlo hhi
  have hhi2 : s.sequence + cfg.count - 1 ≤ int64Max := by
    rw [hmx]
    exact hhi
  have hseg : segLoop env cfg pollFuel (wrap64 (s.sequence + cfg.count - 1)) gas
      s.sequence (initSt cfg fs0) =
      ((executeCapture env cfg pollFuel gas fs0).1,
        (executeCapture env cfg pollFuel gas fs0).2) := by
    rw [← heq]
  rw [hw] at hseg
  by_cases htm : s.sequence + cfg.count - 1 = int64Max
  · exfalso
    rw [htm] at hseg
    exact segLoop_max_target_no_finish env cfg pollFuel gas s.sequence
      (initSt cfg fs0) _ _ hseg hrange.2 ds err hrun
  · obtain ⟨_, hbranch⟩ := segLoop_spec env cfg pollFuel s.sequence
      (s.sequence + cfg.count - 1) gas s.sequence (initSt cfg fs0) _ _ hseg
      (le_refl _) (Or.inr rfl) hrange.1 (lt_of_le_of_ne hhi2 htm)
      (initInv cfg env s.sequence fs0)
    rcases hbranch with hb | ⟨ds', hb⟩ | ⟨stM, ho, _⟩ | ⟨stM, curF, hfin, hinvM, hnat⟩
    · rw [hrun] at hb
      cases hb
    · rw [hrun] at hb
      cases hb
    · rw [hrun] at ho
      cases ho
    · have hst1 : (executeCapture env cfg pollFuel gas fs0).1 = (finishRun cfg stM).1 :=
        congrArg Prod.fst hfin
      have hvis : (executeCapture env cfg pollFuel gas fs0).1.vis = stM.vis := by
        rw [hst1]
        rfl
      refine ⟨?_, ?_⟩
      · rw [hvis, hinvM.vis_eq, hnat,
          show (s.sequence + cfg.count - 1 + 1 - s.sequence).toNat = cfg.count.toNat
            from by omega, hmx]
      · rw [hvis, hinvM.vis_eq]
        exact chain'_lt_consecFrom _ _


theorem chain'_lt_nodup (l : List Int)
    (h : List.Chain' (fun a b : Int => a < b) l) : l.Nodup := by
  have hp : List.Pairwise (fun a b : Int => a < b) l := List.chain'_iff_pairwise.mp h
  exact hp.nodup

theorem map_fst_lookup_getD : ∀ (l : List (Int × Bytes)),
    (l.map (fun e => e.1)).Nodup →
    (l.map (fun e => e.1)).map (fun q => (alLookup l q).getD []) =
      l.map (fun e => e.2) := by
  intro l
  induction l with
  | nil => intro _; rfl
  | cons e rest ih =>
    cases e with
    | mk q0 b0 =>
      intro hnd
      simp only [List.map_cons, List.nodup_cons] at hnd ⊢
      obtain ⟨hq0, hnd'⟩ := hnd
      have hhead : (alLookup ((q0, b0) :: rest) q0).getD [] = b0 := by
        simp [alLookup]
      have htail : List.map (fun q => (alLookup ((q0, b0) :: rest) q).getD [])
          (List.map (fun e => e.1) rest) =
          List.map (fun q => (alLookup rest q).getD [])
            (List.map (fun e => e.1) rest) := by
        apply List.map_congr_left
        intro q hq
        have hne : q0 ≠ q := fun hc => hq0 (hc ▸ hq)
        simp only [alLookup, if_neg hne]
      rw [hhead, htail, ih hnd']

theorem pair_eq_of_nodup_fst {α β : Type} : ∀ (l : List (α × β)),
    (l.map (fun e => e.1)).Nodup →
    ∀ (a : α) (b₁ b₂ : β), (a, b₁) ∈ l → (a, b₂) ∈ l → b₁ = b₂ := by
  intro l
  induction l with
  | nil => intro _ a b₁ b₂ h; cases h
  | cons e rest ih =>
    intro hnd a b₁ b₂ h1 h2
    simp only [List.map_cons, List.nodup_cons] at hnd
    obtain ⟨hq0, hnd'⟩ := hnd
    rcases List.mem_cons.mp h1 with rfl | h1'
    · rcases List.mem_cons.mp h2 with h2h | h2'
      · exact congrArg Prod.snd h2h.symm
      · exact absurd (List.mem_map_of_mem (fun e => e.1) h2') hq0
    · rcases List.mem_cons.mp h2 with rfl | h2'
      · exact absurd (List.mem_map_of_mem (fun e => e.1) h1') hq0
      · exact ih hnd' a b₁ b₂ h1' h2'


/-- C1: in every run that reaches assembly and merges successfully (with
the user's output path outside the store's temporary directory, as
os.MkdirTemp freshness guarantees), the file at output_path is byte-equal
to the concatenation, in ascending sequence order, of the raw fetched
bytes of exactly the staged segments listed in downloadedSequences. -/
theorem c1_assembled_output (env : Env) (cfg : Config) (pollFuel gas : Nat)
    (fs0 : FS) (content : String) (ds : List Int)
    (hpl : env.playlist 0 = some content)
    (hout : isUnder cfg.tempDir cfg.outputPath = false)
    (hrun : (executeCapture env cfg pollFuel gas fs0).2 = Outcome.finished ds none) :
    alLookup (executeCapture env cfg pollFuel gas fs0).1.fs cfg.outputPath =
      some (((executeCapture env cfg pollFuel gas fs0).1.payloads.map
        (fun e => e.2)).flatten) ∧
    (executeCapture env cfg pollFuel gas fs0).1.payloads.map (fun e => e.1) = ds ∧
    List.Chain' (fun a b : Int => a < b) ds ∧
    (∀ e ∈ (executeCapture env cfg pollFuel gas fs0).1.payloads,
      ∃ k, k < (executeCapture env cfg pollFuel gas fs0).1.si ∧
        env.seg k = SegFetch.ok e.2) := by
  obtain ⟨lastSeg, hlast, heq⟩ := executeCapture_run_shape env cfg pollFuel gas fs0
    content hpl (by rw [hrun]; intro hc; cases hc)
  have hrange := parsePlaylist_sequence_range content cfg.playlistURL lastSeg
    (getLastSegment_mem _ _ hlast)
  have hseg : segLoop env cfg pollFuel (wrap64 (lastSeg.sequence + cfg.count - 1)) gas
      lastSeg.sequence (initSt cfg fs0) =
      ((executeCapture env cfg pollFuel gas fs0).1,
        (executeCapture env cfg pollFuel gas fs0).2) := by
    rw [← heq]
  by_cases htm : wrap64 (lastSeg.sequence + cfg.count - 1) = int64Max
  · exfalso
    rw [htm] at hseg
    exact segLoop_max_target_no_finish env cfg pollFuel gas lastSeg.sequence
      (initSt cfg fs0) _ _ hseg hrange.2 ds none hrun
  obtain ⟨_, hbranch⟩ := segLoop_spec env cfg pollFuel lastSeg.sequence
    (wrap64 (lastSeg.sequence + cfg.count - 1)) gas lastSeg.sequence
    (initSt cfg fs0) _ _ hseg (le_refl _) (Or.inr rfl) hrange.1
    (lt_of_le_of_ne (wrap64_range _).2 htm) (initInv cfg env lastSeg.sequence fs0)
  rcases hbranch with hb | ⟨ds', hb⟩ | ⟨stM, ho, _⟩ | ⟨stM, curF, hfin, hinvM, hnat⟩
  · rw [hrun] at hb
    cases hb
  · rw [hrun] at hb
    cases hb
  · rw [hrun] at ho
    cases ho
  · have hst1 : (executeCapture env cfg pollFuel gas fs0).1 = (finishRun cfg stM).1 :=
      congrArg Prod.fst hfin
    have hout2 : (executeCapture env cfg pollFuel gas fs0).2 = (finishRun cfg stM).2 :=
      congrArg Prod.snd hfin
    rw [hrun] at hout2
    have hds : ds = stM.ds := by
      have := congrArg (fun o => match o with
        | Outcome.finished ds _ => ds
        | _ => []) hout2
      exact this
    -- merge precondition
    have hndds : stM.ds.Nodup := chain'_lt_nodup _ hinvM.ds_chain
    have hmergePre : ∀ q ∈ stM.ds, ∃ pq, alLookup stM.mgr.segments q = some pq ∧
        pq ≠ cfg.outputPath ∧ alLookup (alWrite stM.fs cfg.outputPath []) pq =
          some ((alLookup stM.payloads q).getD []) := by
      intro q hq
      have hne : segmentFileName cfg.tempDir q ≠ cfg.outputPath :=
        (ne_of_not_isUnder hout q).symm
      refine ⟨segmentFileName cfg.tempDir q, ?_, hne, ?_⟩
      · rw [hinvM.mgr_lookup q, if_pos hq]
      · rw [alLookup_write_ne _ _ _ _ hne]
        have hq' : q ∈ stM.payloads.map (fun e => e.1) := by
          rw [hinvM.pay_fst]
          exact hq
        obtain ⟨b, hb⟩ := Option.isSome_iff_exists.mp
          (alLookup_isSome_of_mem_fst _ q hq')
        rw [hb]
        have := hinvM.fs_pay (q, b) (alLookup_mem _ _ _ hb)
        simpa using this
    obtain ⟨hm2, hmout, _⟩ := mergeLoop_ok stM.mgr cfg.outputPath
      (fun q => (alLookup stM.payloads q).getD []) stM.ds
      (alWrite stM.fs cfg.outputPath []) [] hmergePre (alLookup_write_self _ _ _)
    -- the final file system and the output entry
    have hfsF : (executeCapture env cfg pollFuel gas fs0).1.fs =
        (cleanup (mergeSegments stM.fs stM.mgr cfg.outputPath stM.ds).1 stM.mgr).1 := by
      rw [hst1]
      rfl
    have houtside : isUnder stM.mgr.tempDir cfg.outputPath = false := by
      rw [hinvM.mgr_tmp]
      exact hout
    have hmapped : ∀ e ∈ stM.mgr.segments, e.2 ≠ cfg.outputPath := by
      intro e he
      rw [hinvM.entries e he]
      exact (ne_of_not_isUnder hout e.1).symm
    have hfinal : alLookup (executeCapture env cfg pollFuel gas fs0).1.fs
        cfg.outputPath =
        some ((stM.ds.map (fun q => (alLookup stM.payloads q).getD [])).flatten) := by
      rw [hfsF, cleanup_lookup_outside _ _ _ houtside hmapped]
      have : (mergeSegments stM.fs stM.mgr cfg.outputPath stM.ds).1 =
          (mergeLoop stM.mgr cfg.outputPath (alWrite stM.fs cfg.outputPath [])
            stM.ds).1 := rfl
      rw [this]
      simpa using hmout
    have hpayF : (executeCapture env cfg pollFuel gas fs0).1.payloads = stM.payloads := by
      rw [hst1]
      rfl
    have hsiF : (executeCapture env cfg pollFuel gas fs0).1.si = stM.si := by
      rw [hst1]
      rfl
    have hconv : stM.ds.map (fun q => (alLookup stM.payloads q).getD []) =
        stM.payloads.map (fun e => e.2) := by
      conv_lhs => rw [← hinvM.pay_fst]
      apply map_fst_lookup_getD
      rw [hinvM.pay_fst]
      exact hndds
    refine ⟨?_, ?_, ?_, ?_⟩
    · rw [hfinal, hconv, hpayF]
    · rw [hpayF, hinvM.pay_fst, hds]
    · rw [hds]
      exact hinvM.ds_chain
    · intro e he
      rw [hpayF] at he
      rw [hsiF]
      exact hinvM.pay_net e he


/-- C8: the cancellation signal is checked at the top of every polling
iteration (every playlist request in the trace is the initial snapshot
fetch or immediately follows a polling checkpoint that observed no
cancellation) and before starting each new segment (every segment request
follows that sequence's per-segment checkpoint); once cancellation is
observed the run's trace ends at that very checkpoint — no further
network requests — no assembly event ever occurs, the run returns nil
(success), and the store teardown has removed every file under the
temporary directory. -/
theorem c8_cancellation (env : Env) (cfg : Config) (pollFuel gas : Nat)
    (fs0 : FS) (content : String) (ds : List Int)
    (hpl : env.playlist 0 = some content)
    (hrun : (executeCapture env cfg pollFuel gas fs0).2 = Outcome.cancelled ds) :
    PollChecked (executeCapture env cfg pollFuel gas fs0).1.tr ∧
    SegChecked (executeCapture env cfg pollFuel gas fs0).1.tr ∧
    (∃ t₀ s0, (executeCapture env cfg pollFuel gas fs0).1.tr =
        t₀ ++ [Ev.checkSeg s0 true] ∨
      (executeCapture env cfg pollFuel gas fs0).1.tr =
        t₀ ++ [Ev.checkPoll s0 true]) ∧
    Ev.assemble ∉ (executeCapture env cfg pollFuel gas fs0).1.tr ∧
    Outcome.isSuccess (executeCapture env cfg pollFuel gas fs0).2 = true ∧
    (∀ p, isUnder cfg.tempDir p = true →
      alLookup (executeCapture env cfg pollFuel gas fs0).1.fs p = none) := by
  obtain ⟨lastSeg, hlast, heq⟩ := executeCapture_run_shape env cfg pollFuel gas fs0
    content hpl (by rw [hrun]; intro hc; cases hc)
  have hseg : segLoop env cfg pollFuel (wrap64 (lastSeg.sequence + cfg.count - 1))
      gas lastSeg.sequence (initSt cfg fs0) =
      ((executeCapture env cfg pollFuel gas fs0).1,
        (executeCapture env cfg pollFuel gas fs0).2) := by
    rw [← heq]
  obtain ⟨⟨hpc, hsc⟩, hbranch⟩ := segLoop_trace_spec env cfg pollFuel
    (wrap64 (lastSeg.sequence + cfg.count - 1)) gas lastSeg.sequence
    (initSt cfg fs0) _ _ hseg rfl
  rcases hbranch with hb | ⟨ds', hb⟩ | hb | ⟨dsF, errF, hb⟩
  · rw [hrun] at hb
    cases hb
  · rw [hrun] at hb
    cases hb
  · obtain ⟨stM, ho, hst, hmt, ⟨t, htm, hna⟩, hend⟩ := hb
    have htrF : (executeCapture env cfg pollFuel gas fs0).1.tr = stM.tr := by
      rw [hst]
      rfl
    refine ⟨?_, ?_, ?_, ?_, ?_, ?_⟩
    · exact hpc pollChecked_init
    · exact hsc segChecked_init
    · obtain ⟨t₀, s0, hts⟩ := hend
      exact ⟨t₀, s0, by rw [htrF]; exact hts⟩
    · rw [htrF, htm]
      intro hmem
      rw [List.mem_append] at hmem
      rcases hmem with hmem | hmem
      · simp [initSt] at hmem
      · exact hna hmem
    · rw [hrun]
      rfl
    · intro p hp
      have hfsF : (executeCapture env cfg pollFuel gas fs0).1.fs =
          (cleanup stM.fs stM.mgr).1 := by
        rw [hst]
        rfl
      rw [hfsF]
      apply cleanup_lookup_under
      rw [hmt]
      exact hp
  · rw [hrun] at hb
    cases hb

/-- C6: when a segment's byte fetch fails during staging, the store
deletes the partially written backing file, leaves no map entry for that
sequence, and reports that a network fetch was attempted; and at the run
level a finished capture's downloadedSequences are exactly the successful
download attempts, so a sequence whose download attempt failed is absent
from them while the loop still went on to the end of the window. -/
theorem c6_failed_fetch_skipped
    (fs : FS) (m : Manager) (seg : Segment) (leftover : Bytes)
    (hcond : alLookup m.segments seg.sequence = none ∨
      (∃ p, alLookup m.segments seg.sequence = some p ∧ alLookup fs p = none))
    (env : Env) (cfg : Config) (pollFuel gas : Nat) (fs0 : FS) (content : String)
    (ds : List Int) (err : Option MergeErr)
    (hpl : env.playlist 0 = some content)
    (hrun : (executeCapture env cfg pollFuel gas fs0).2 = Outcome.finished ds err) :
    ((downloadSegment fs m seg (SegFetch.fail leftover)).result = none ∧
      alLookup (downloadSegment fs m seg (SegFetch.fail leftover)).fs
        (segmentFileName m.tempDir seg.sequence) = none ∧
      alLookup (downloadSegment fs m seg (SegFetch.fail leftover)).mgr.segments
        seg.sequence = none ∧
      (downloadSegment fs m seg (SegFetch.fail leftover)).fetched = true) ∧
    (ds = ((executeCapture env cfg pollFuel gas fs0).1.dlog.filter
        (fun e => e.2)).map (fun e => e.1) ∧
      ∀ s : Int, (s, false) ∈ (executeCapture env cfg pollFuel gas fs0).1.dlog →
        s ∉ ds) := by
  constructor
  · rcases hcond with hnone | ⟨p, hsome, hgone⟩
    · have hd : downloadSegment fs m seg (SegFetch.fail leftover) =
          downloadFresh fs m seg (SegFetch.fail leftover) := by
        simp only [downloadSegment, hnone]
      rw [hd]
      refine ⟨rfl, ?_, hnone, rfl⟩
      simp only [downloadFresh]
      exact alLookup_erase_self _ _
    · have hd : downloadSegment fs m seg (SegFetch.fail leftover) =
          downloadFresh fs { m with segments := alErase m.segments seg.sequence }
            seg (SegFetch.fail leftover) := by
        simp [downloadSegment, hsome, hgone]
      rw [hd]
      refine ⟨rfl, ?_, ?_, rfl⟩
      · simp only [downloadFresh]
        exact alLookup_erase_self _ _
      · simp only [downloadFresh]
        exact alLookup_erase_self _ _
  · obtain ⟨lastSeg, hlast, heq⟩ := executeCapture_run_shape env cfg pollFuel gas fs0
      content hpl (by rw [hrun]; intro hc; cases hc)
    have hrange := parsePlaylist_sequence_range content cfg.playlistURL lastSeg
      (getLastSegment_mem _ _ hlast)
    have hseg : segLoop env cfg pollFuel (wrap64 (lastSeg.sequence + cfg.count - 1))
        gas lastSeg.sequence (initSt cfg fs0) =
        ((executeCapture env cfg pollFuel gas fs0).1,
          (executeCapture env cfg pollFuel gas fs0).2) := by
      rw [← heq]
    by_cases htm : wrap64 (lastSeg.sequence + cfg.count - 1) = int64Max
    · exfalso
      rw [htm] at hseg
      exact segLoop_max_target_no_finish env cfg pollFuel gas lastSeg.sequence
        (initSt cfg fs0) _ _ hseg hrange.2 ds err hrun
    obtain ⟨_, hbranch⟩ := segLoop_spec env cfg pollFuel lastSeg.sequence
      (wrap64 (lastSeg.sequence + cfg.count - 1)) gas lastSeg.sequence
      (initSt cfg fs0) _ _ hseg (le_refl _) (Or.inr rfl) hrange.1
      (lt_of_le_of_ne (wrap64_range _).2 htm) (initInv cfg env lastSeg.sequence fs0)
    rcases hbranch with hb | ⟨ds', hb⟩ | ⟨stM, ho, _⟩ | ⟨stM, curF, hfin, hinvM, _⟩
    · rw [hrun] at hb
      cases hb
    · rw [hrun] at hb
      cases hb
    · rw [hrun] at ho
      cases ho
    · have hst1 : (executeCapture env cfg pollFuel gas fs0).1 = (finishRun cfg stM).1 :=
        congrArg Prod.fst hfin
      have hout2 : (executeCapture env cfg pollFuel gas fs0).2 =
          (finishRun cfg stM).2 := congrArg Prod.snd hfin
      rw [hrun] at hout2
      have hds : ds = stM.ds := by
        have := congrArg (fun o => match o with
          | Outcome.finished ds _ => ds
          | _ => []) hout2
        exact this
      have hdlogF : (executeCapture env cfg pollFuel gas fs0).1.dlog = stM.dlog := by
        rw [hst1]
        rfl
      have hnd : (stM.dlog.map (fun e => e.1)).Nodup := by
        rw [hinvM.dlog_vis, hinvM.vis_eq]
        exact consecFrom_nodup _ _
      refine ⟨?_, ?_⟩
      · rw [hdlogF, hds]
        exact hinvM.ds_dlog
      · intro s hmem hsds
        rw [hdlogF] at hmem
        rw [hds, hinvM.ds_dlog] at hsds
        obtain ⟨e, hef, hes⟩ := List.mem_map.mp hsds
        have het : e.2 = true := by
          have := List.mem_filter.mp hef
          simpa using this.2
        have hedlog : e ∈ stM.dlog := (List.mem_filter.mp hef).1
        have heq' : e = (s, true) := by
          cases e with
          | mk a b =>
            simp only at hes het
            rw [hes, het]
        rw [heq'] at hedlog
        have := pair_eq_of_nodup_fst stM.dlog hnd s false true hmem hedlog
        cases this


def cfgC9 : Config :=
  { playlistURL := "http://h/p.m3u8", outputPath := "out.ts", count := 2, tempDir := "tmp" }

def envC9 : Env :=
  { cancel := fun _ => false
    playlist := fun k => if k ≤ 1 then some "s_5.ts" else some ""
    seg := fun _ => SegFetch.ok [1] }

/-- C9 (code bug): while waiting for sequence 6, a refreshed snapshot that
parses successfully but contains zero descriptors makes the progress print
dereference GetLastSegment's nil result on the very first retry — the run
panics instead of sleeping and polling again. -/
theorem c9_empty_snapshot_panics :
    (executeCapture envC9 cfgC9 3 3 []).2 = Outcome.panicked [5] ∧
    getLastSegment (parsePlaylist "" cfgC9.playlistURL) = none := by
  decide

def cfgC2w : Config :=
  { playlistURL := "http://h/p.m3u8", outputPath := "out.ts", count := 3, tempDir := "tmp" }

def envC2w : Env :=
  { cancel := fun _ => false
    playlist := fun k => if k = 0 then some "s_5.ts"
      else some "s_5.ts\ns_6.ts\ns_7.ts\ns_8.ts\ns_9.ts"
    seg := fun _ => SegFetch.ok [1] }

/-- Witness for c2_window: the spec's own example — first snapshot with
maximum sequence 5 and requested count 3 gives the fixed window 5, 6, 7
even though every later poll reveals sequences up to 9. -/
theorem c2_window_witness :
    (envC2w.playlist 0 = some "s_5.ts" ∧
      maxSequence (parsePlaylist "s_5.ts" cfgC2w.playlistURL) = some 5 ∧
      int64Min ≤ (5 : Int) + cfgC2w.count - 1 ∧
      (5 : Int) + cfgC2w.count - 1 ≤ int64Max ∧
      (executeCapture envC2w cfgC2w 3 6 []).2 = Outcome.finished [5, 6, 7] none) ∧
    ((executeCapture envC2w cfgC2w 3 6 []).1.vis = consecFrom 5 (3 : Int).toNat ∧
      List.Chain' (fun a b : Int => a < b) (executeCapture envC2w cfgC2w 3 6 []).1.vis) :=
  ⟨⟨by decide, by decide, by decide, by decide, by decide⟩,
    c2_window envC2w cfgC2w 3 6 [] "s_5.ts" 5 [5, 6, 7] none (by decide) (by decide)
      (by decide) (by decide) (by decide)⟩

def cfgC1w : Config :=
  { playlistURL := "http://h/p.m3u8", outputPath := "out.ts", count := 2, tempDir := "tmp" }

def envC1w : Env :=
  { cancel := fun _ => false
    playlist := fun k => if k = 0 then some "s_5.ts" else some "s_5.ts\ns_6.ts"
    seg := fun k => if k = 0 then SegFetch.ok [1, 2] else SegFetch.ok [3] }

/-- Witness for c1_assembled_output: two segments with payloads [1, 2] and
[3] produce the output file [1, 2, 3]. -/
theorem c1_assembled_output_witness :
    (envC1w.playlist 0 = some "s_5.ts" ∧
      isUnder cfgC1w.tempDir cfgC1w.outputPath = false ∧
      (executeCapture envC1w cfgC1w 3 4 []).2 = Outcome.finished [5, 6] none) ∧
    (alLookup (executeCapture envC1w cfgC1w 3 4 []).1.fs cfgC1w.outputPath =
        some (((executeCapture envC1w cfgC1w 3 4 []).1.payloads.map
          (fun e => e.2)).flatten) ∧
      (executeCapture envC1w cfgC1w 3 4 []).1.payloads.map (fun e => e.1) = [5, 6] ∧
      List.Chain' (fun a b : Int => a < b) [(5 : Int), 6] ∧
      (∀ e ∈ (executeCapture envC1w cfgC1w 3 4 []).1.payloads,
        ∃ k, k < (executeCapture envC1w cfgC1w 3 4 []).1.si ∧
          envC1w.seg k = SegFetch.ok e.2)) :=
  ⟨⟨by decide, by decide, by decide⟩,
    c1_assembled_output envC1w cfgC1w 3 4 [] "s_5.ts" [5, 6] (by decide) (by decide)
      (by decide)⟩

def cfgC8w : Config :=
  { playlistURL := "http://h/p.m3u8", outputPath := "out.ts", count := 2, tempDir := "tmp" }

def envC8w : Env :=
  { cancel := fun k => 2 ≤ k
    playlist := fun _ => some "s_5.ts"
    seg := fun _ => SegFetch.ok [9] }

/-- Witness for c8_cancellation: cancellation observed at the per-segment
checkpoint of the second window sequence. -/
theorem c8_cancellation_witness :
    (envC8w.playlist 0 = some "s_5.ts" ∧
      (executeCapture envC8w cfgC8w 3 4 []).2 = Outcome.cancelled [5]) ∧
    (PollChecked (executeCapture envC8w cfgC8w 3 4 []).1.tr ∧
      SegChecked (executeCapture envC8w cfgC8w 3 4 []).1.tr ∧
      (∃ t₀ s0, (executeCapture envC8w cfgC8w 3 4 []).1.tr =
          t₀ ++ [Ev.checkSeg s0 true] ∨
        (executeCapture envC8w cfgC8w 3 4 []).1.tr = t₀ ++ [Ev.checkPoll s0 true]) ∧
      Ev.assemble ∉ (executeCapture envC8w cfgC8w 3 4 []).1.tr ∧
      Outcome.isSuccess (executeCapture envC8w cfgC8w 3 4 []).2 = true ∧
      (∀ p, isUnder cfgC8w.tempDir p = true →
        alLookup (executeCapture envC8w cfgC8w 3 4 []).1.fs p = none)) :=
  ⟨⟨by decide, by decide⟩,
    c8_cancellation envC8w cfgC8w 3 4 [] "s_5.ts" [5] (by decide) (by decide)⟩

def cfgC6w : Config :=
  { playlistURL := "http://h/p.m3u8", outputPath := "out.ts", count := 2, tempDir := "tmp" }

def envC6w : Env :=
  { cancel := fun _ => false
    playlist := fun k => if k = 0 then some "s_5.ts" else some "s_5.ts\ns_6.ts"
    seg := fun k => if k = 0 then SegFetch.fail [7] else SegFetch.ok [3] }

/-- Witness for c6_failed_fetch_skipped: the fetch for sequence 5 fails
mid-stream, 5 is skipped, the run carries on and finishes having
downloaded only sequence 6. -/
theorem c6_failed_fetch_skipped_witness :
    (alLookup (Manager.mk "t" []).segments 9 = none ∧
      envC6w.playlist 0 = some "s_5.ts" ∧
      (executeCapture envC6w cfgC6w 3 4 []).2 = Outcome.finished [6] none) ∧
    (((downloadSegment [] (Manager.mk "t" []) ⟨"u", 9, none⟩
          (SegFetch.fail [1])).result = none ∧
        alLookup (downloadSegment [] (Manager.mk "t" []) ⟨"u", 9, none⟩
          (SegFetch.fail [1])).fs (segmentFileName "t" 9) = none ∧
        alLookup (downloadSegment [] (Manager.mk "t" []) ⟨"u", 9, none⟩
          (SegFetch.fail [1])).mgr.segments 9 = none ∧
        (downloadSegment [] (Manager.mk "t" []) ⟨"u", 9, none⟩
          (SegFetch.fail [1])).fetched = true) ∧
      ([6] = ((executeCapture envC6w cfgC6w 3 4 []).1.dlog.filter
          (fun e => e.2)).map (fun e => e.1) ∧
        ∀ s : Int, (s, false) ∈ (executeCapture envC6w cfgC6w 3 4 []).1.dlog →
          s ∉ [(6 : Int)])) :=
  ⟨⟨by decide, by decide, by decide⟩,
    c6_failed_fetch_skipped [] (Manager.mk "t" []) ⟨"u", 9, none⟩ [1]
      (Or.inl (by decide)) envC6w cfgC6w 3 4 [] "s_5.ts" [6] none (by decide)
      (by decide)⟩


end StreamCap
